import Mathlib

/-!
Verification model of the coverage tracker of this repository
(CompressedCoverage.hpp and its payload wrapper CompressedCoverage_t).

The header file declares the class layout, the tag constants, the mask
constants and the inline byte-rounding helper; those definitions are
translated here directly from the source.  The bodies of the member
functions (initialize, cover, covAt, isFull, setFull, splittingVector,
lowCoverageInfo, size) are not part of the sources available here, so
they are modelled from the specification, as marked on each definition.

Representation: a store is a machine word (modelled as a Nat) together
with the optionally owned heap buffer.  Per the layout comment of the
header, bit 0 of the word is the local-array tag, bit 1 is the full
flag, bits 2..7 hold the inline length and bits 8..63 hold up to 28
two-bit counters.  For the heap layout the word holds a pointer whose
two low bits are zero; addresses are not modelled, so the word is 0 in
that case and the pointed-to buffer is carried alongside as `buf`.
-/

namespace CCov

/-- Heap buffer of the pointer layout: per the header comment, the first
eight bytes hold two uint32 fields (total number of counters and number
of saturated counters) and the remaining bytes hold the counters packed
four per byte, two bits each.  The two header fields are modelled as Nat
fields and the packed counter bytes as a list of byte values. -/
structure HeapBuf where
  total : Nat
  filled : Nat
  bytes : List Nat
  deriving Repr, DecidableEq

/-- The tagged-pointer union: the machine word `asBits`, plus the heap
allocation reachable through the pointer bits (`none` when no heap
allocation is held). -/
structure CompressedCoverage where
  asBits : Nat
  buf : Option HeapBuf
  deriving Repr, DecidableEq

namespace CompressedCoverage

/-- From the source: `static const size_t size_limit = 28`. -/
def size_limit : Nat := 28

/-- From the source: `static const size_t cov_full = 2`. -/
def cov_full : Nat := 2

/-- From the source: `static const uintptr_t tagMask = 1` (local array bit). -/
def tagMask : Nat := 1

/-- From the source: `static const uintptr_t fullMask = 2` (full bit). -/
def fullMask : Nat := 2

/-- From the source: `static const uintptr_t sizeMask = 0xFC`. -/
def sizeMask : Nat := 0xFC

/-- From the source: `static const uintptr_t localCoverageMask = 0xAAAAAAAAAAAAAA`. -/
def localCoverageMask : Nat := 0xAAAAAAAAAAAAAA

/-- From the source: `round_to_bytes(len) = (len + 3) / 4`. -/
def round_to_bytes (len : Nat) : Nat := (len + 3) / 4

/-- Arithmetic form of the inline length field: the six bits at
positions 2..7 of the word, i.e. `(w & sizeMask) >> 2`.  The
equivalence with the mask form is proved below. -/
def decodeInlineLen (w : Nat) : Nat := w / 4 % 64

/-- Arithmetic form of the inline counter extraction: the two bits at
positions `8 + 2 i` and `9 + 2 i` of the word, i.e.
`(w >> (8 + 2 i)) & 0x3`. -/
def decodeInlineCtr (w i : Nat) : Nat := w / 2 ^ (8 + 2 * i) % 4

/-- Counter extraction from the packed bytes of a heap buffer: counter
`i` sits in byte `i / 4`, at bit offset `2 * (i % 4)`. -/
def decodeByteCtr (bytes : List Nat) (i : Nat) : Nat :=
  bytes.getD (i / 4) 0 / 2 ^ (2 * (i % 4)) % 4

/-- Pack a list of two-bit counters into one integer, counter `i` at bit
position `2 i`. -/
def pack2 : List Nat → Nat
  | [] => 0
  | c :: cs => c + 4 * pack2 cs

/-- Pack a list of two-bit counters into bytes, four counters per byte. -/
def packBytes : List Nat → List Nat
  | [] => []
  | c :: cs => pack2 ((c :: cs).take 4) :: packBytes ((c :: cs).drop 4)
  termination_by cs => cs.length
  decreasing_by simp; omega

/-- The inline machine word for a given counter list: tag bit set, full
bit clear, length in bits 2..7, counters packed from bit 8 up. -/
def encodeInline (cs : List Nat) : Nat := tagMask + 4 * cs.length + 256 * pack2 cs

/-- Number of saturated counters in a list. -/
def countSat (cs : List Nat) : Nat := cs.countP (fun c => c == cov_full)

/-- Whether every counter of a list is saturated. -/
def allSat (cs : List Nat) : Bool := cs.all (fun c => c == cov_full)

/-- The fully-covered word: tag bit and full bit set, with the length
threaded in the bits above them (the spec requires implementers to
thread the length alongside the `is_full` state). -/
def mkFull (len : Nat) : CompressedCoverage := ⟨3 + 4 * len, none⟩

/-- Tag bit of the word (1 = local array). -/
def tagBit (cc : CompressedCoverage) : Nat := cc.asBits % 2

/-- Full bit of the word (1 = fully-covered shortcut). -/
def fullBit (cc : CompressedCoverage) : Nat := cc.asBits / 2 % 2

/-- Modelled from the spec: `size()` returns the number of counters in
O(1) from whichever representation is active (length field of the word
for the inline and full layouts, header field of the buffer for the
heap layout). -/
def size (cc : CompressedCoverage) : Nat :=
  if cc.fullBit = 1 then cc.asBits / 4
  else if cc.tagBit = 1 then decodeInlineLen cc.asBits
  else match cc.buf with
       | some b => b.total
       | none => 0

/-- Modelled from the spec: `isFull()` is true if the full flag is set,
or, in the heap layout, if the maintained saturated-counter header
equals the total counter count. -/
def isFull (cc : CompressedCoverage) : Bool :=
  (cc.fullBit == 1) ||
    (cc.tagBit == 0 &&
      match cc.buf with
      | some b => b.filled == b.total
      | none => false)

/-- Modelled from the spec: `covAt(index)` returns the counter value at
`index`; if the store is full it returns `cov_full` without touching
memory, otherwise it reads the two bits of the active representation. -/
def covAt (cc : CompressedCoverage) (i : Nat) : Nat :=
  if cc.fullBit = 1 then cov_full
  else if cc.tagBit = 1 then decodeInlineCtr cc.asBits i
  else match cc.buf with
       | some b => decodeByteCtr b.bytes i
       | none => 0

/-- The abstract counter sequence of a store, read off the active
physical representation (used to state and prove properties; the
operations below manipulate the packed representations). -/
def toCounters (cc : CompressedCoverage) : List Nat :=
  if cc.fullBit = 1 then List.replicate cc.size cov_full
  else if cc.tagBit = 1 then (List.range cc.size).map (decodeInlineCtr cc.asBits)
  else match cc.buf with
       | some b => (List.range b.total).map (decodeByteCtr b.bytes)
       | none => []

/-- Modelled from the spec: `initialize(sz, full)` resets the store to
`sz` counters: if `full` it sets the full shortcut directly, otherwise
it uses the inline layout with all counters zero when `sz ≤ size_limit`
and else allocates a zero-initialized heap buffer of
`round_to_bytes sz` packed bytes plus the eight-byte header. -/
def initCC (sz : Nat) (full : Bool) : CompressedCoverage :=
  if full then mkFull sz
  else if sz ≤ size_limit then ⟨tagMask + 4 * sz, none⟩
  else ⟨0, some ⟨sz, 0, List.replicate (round_to_bytes sz) 0⟩⟩

/-- Raise the counters of positions `[s, e)` of a counter list to
`cov_full`, leaving the other positions unchanged. -/
def coverListAux : List Nat → Nat → Nat → Nat → List Nat
  | [], _, _, _ => []
  | c :: cs, i, s, e =>
      (if s ≤ i ∧ i < e then cov_full else c) :: coverListAux cs (i + 1) s e

/-- Range update on the abstract counter sequence. -/
def coverList (cs : List Nat) (s e : Nat) : List Nat := coverListAux cs 0 s e

/-- Modelled from the spec: `cover(start, end)` marks positions
`[start, end)` as saturated (raising each counter in range to
`cov_full`); it is a no-op if the store is already full, and if after
the update every counter is saturated the representation collapses:
the heap buffer (if any) is released and the store transitions to the
full shortcut. -/
def cover (cc : CompressedCoverage) (s e : Nat) : CompressedCoverage :=
  if cc.isFull then cc
  else if cc.tagBit = 1 then
    let cs2 := coverList cc.toCounters s e
    if allSat cs2 then mkFull cc.size else ⟨encodeInline cs2, none⟩
  else match cc.buf with
       | some b =>
           let cs2 := coverList cc.toCounters s e
           if allSat cs2 then mkFull b.total
           else ⟨0, some ⟨b.total, countSat cs2, packBytes cs2⟩⟩
       | none => cc

/-- Modelled from the spec: `setFull()` releases any heap buffer and
forces the fully-covered shortcut, keeping the length. -/
def setFull (cc : CompressedCoverage) : CompressedCoverage := mkFull cc.size

/-- Length of the leading run of elements equal to `b`. -/
def takeRun (b : Bool) : List Bool → Nat
  | [] => 0
  | c :: cs => if c = b then takeRun b cs + 1 else 0

/-- Maximal runs of equal classification, as half-open ranges starting
at absolute offset `off`. -/
def runsAux : List Bool → Nat → List (Nat × Nat)
  | [], _ => []
  | b :: rest, off =>
      (off, off + (takeRun b rest + 1)) ::
        runsAux (rest.drop (takeRun b rest)) (off + (takeRun b rest + 1))
  termination_by bs _ => bs.length
  decreasing_by simp; omega

/-- Modelled from the spec: `splittingVector()` returns the ordered
half-open ranges of the maximal runs of counters sharing the same
confirmed classification (confirmed = counter equals `cov_full`); an
empty store yields the empty sequence, and a full store yields the
single confirmed range covering the whole node. -/
def splittingVector (cc : CompressedCoverage) : List (Nat × Nat) :=
  if cc.size = 0 then []
  else if cc.isFull then [(0, cc.size)]
  else runsAux (cc.toCounters.map (fun c => c == cov_full)) 0

/-- Length of the leading run of zero counters. -/
def leadZeros : List Nat → Nat
  | [] => 0
  | c :: cs => if c = 0 then leadZeros cs + 1 else 0

/-- Start and length of the longest (earliest on ties) run of zeros. -/
def lzr : List Nat → Nat × Nat
  | [] => (0, 0)
  | c :: rest =>
      let p := lzr rest
      if leadZeros (c :: rest) < p.2 then (p.1 + 1, p.2)
      else (0, leadZeros (c :: rest))

/-- Modelled from the spec: `lowCoverageInfo()` returns the start
position and length of the longest contiguous run of never-covered
(zero) counters, ties broken by earliest start, and a zero-length
result positioned at 0 when no zero counter exists. -/
def lowCoverageInfo (cc : CompressedCoverage) : Nat × Nat := lzr cc.toCounters

/-- Apply a sequence of cover calls in order. -/
def applyOps (cc : CompressedCoverage) (ops : List (Nat × Nat)) : CompressedCoverage :=
  ops.foldl (fun c p => c.cover p.1 p.2) cc

/-- Inline-layout store holding the given counters. -/
def mkInline (cs : List Nat) : CompressedCoverage := ⟨encodeInline cs, none⟩

/-- Heap-layout store holding the given counters, with an honest
saturated-counter header field. -/
def mkHeap (cs : List Nat) : CompressedCoverage :=
  ⟨0, some ⟨cs.length, countSat cs, packBytes cs⟩⟩

/-- Well-formedness of a store: the shapes reachable through the public
operations.  Heap layout: word is the (abstracted) pointer with both
tag bits clear, the byte buffer has exactly `round_to_bytes total`
bytes of byte values, the decoded counters are at most `cov_full`, the
saturated-count header field is accurate and below the total (a heap
store with all counters saturated has always been collapsed).  Tagged
layouts: either the full shortcut (both low bits set) or the inline
pattern (tag set, full clear) with length at most `size_limit`, no
counter bits above the length, counters at most `cov_full`, and, for a
nonempty store, at least one unsaturated counter (an inline store with
all counters saturated has always been collapsed). -/
def WF (cc : CompressedCoverage) : Prop :=
  match cc.buf with
  | some b =>
      cc.asBits = 0 ∧
      b.bytes.length = round_to_bytes b.total ∧
      (∀ x ∈ b.bytes, x < 256) ∧
      (∀ i, i < b.total → decodeByteCtr b.bytes i ≤ cov_full) ∧
      b.filled = countSat ((List.range b.total).map (decodeByteCtr b.bytes)) ∧
      b.filled < b.total
  | none =>
      cc.asBits % 4 = 3 ∨
      (cc.asBits % 4 = 1 ∧
       decodeInlineLen cc.asBits ≤ size_limit ∧
       cc.asBits / 2 ^ 8 < 4 ^ decodeInlineLen cc.asBits ∧
       (∀ i, i < decodeInlineLen cc.asBits → decodeInlineCtr cc.asBits i ≤ cov_full) ∧
       (0 < decodeInlineLen cc.asBits →
         ∃ i, i < decodeInlineLen cc.asBits ∧ decodeInlineCtr cc.asBits i ≠ cov_full))

/-- A store is honest when the fast full check can only answer true if
every decoded counter is saturated. -/
def honest (cc : CompressedCoverage) : Prop :=
  cc.isFull = true → cc.toCounters = List.replicate cc.size cov_full

end CompressedCoverage

end CCov

namespace CCov

namespace CompressedCoverage

theorem pack2_lt (cs : List Nat) (h : ∀ c ∈ cs, c < 4) : pack2 cs < 4 ^ cs.length := by
  induction cs with
  | nil => simp [pack2]
  | cons c cs ih =>
      have hc : c < 4 := h c (by simp)
      have ht : pack2 cs < 4 ^ cs.length := ih (fun x hx => h x (by simp [hx]))
      simp only [pack2, List.length_cons, pow_succ]
      omega

theorem pack2_extract (cs : List Nat) (h : ∀ c ∈ cs, c < 4) :
    ∀ i, i < cs.length → pack2 cs / 4 ^ i % 4 = cs.getD i 0 := by
  induction cs with
  | nil => intro i hi; simp at hi
  | cons c cs ih =>
      intro i hi
      match i with
      | 0 =>
          have hc : c < 4 := h c (by simp)
          simp only [pack2, pow_zero, Nat.div_one, List.getD_cons_zero]
          omega
      | Nat.succ j =>
          have hj : j < cs.length := by simpa using hi
          have hc : c < 4 := h c (by simp)
          have step : pack2 (c :: cs) / 4 ^ (j + 1) = pack2 cs / 4 ^ j := by
            have h1 : (4 : Nat) ^ (j + 1) = 4 * 4 ^ j := by ring
            rw [h1, ← Nat.div_div_eq_div_mul]
            have h2 : pack2 (c :: cs) / 4 = pack2 cs := by
              simp only [pack2]
              omega
            rw [h2]
          rw [step, ih (fun x hx => h x (by simp [hx])) j hj]
          simp [List.getD_cons_succ]

theorem packBytes_length (cs : List Nat) :
    (packBytes cs).length = round_to_bytes cs.length := by
  induction cs using packBytes.induct with
  | case1 => simp [packBytes, round_to_bytes]
  | case2 c cs ih =>
      simp only [packBytes, List.length_cons, ih, round_to_bytes, List.length_drop]
      omega

theorem packBytes_lt256 (cs : List Nat) (h : ∀ c ∈ cs, c < 4) :
    ∀ x ∈ packBytes cs, x < 256 := by
  induction cs using packBytes.induct with
  | case1 => simp [packBytes]
  | case2 c cs ih =>
      intro x hx
      simp only [packBytes, List.mem_cons] at hx
      rcases hx with hx | hx
      · have hb : ∀ y ∈ (c :: cs).take 4, y < 4 :=
          fun y hy => h y (List.mem_of_mem_take hy)
        have := pack2_lt ((c :: cs).take 4) hb
        have hlen : ((c :: cs).take 4).length ≤ 4 := by
          simp [List.length_take]
        have : pack2 ((c :: cs).take 4) < 4 ^ 4 :=
          lt_of_lt_of_le this (Nat.pow_le_pow_right (by norm_num) hlen)
        subst hx
        simpa using this
      · exact ih (fun y hy => h y (List.mem_of_mem_drop hy)) x hx

theorem getD_take (l : List Nat) (n i : Nat) (h : i < n) :
    (l.take n).getD i 0 = l.getD i 0 := by
  simp [List.getD, List.getElem?_take, h]

theorem getD_drop (l : List Nat) (n i : Nat) :
    (l.drop n).getD i 0 = l.getD (n + i) 0 := by
  simp [List.getD, List.getElem?_drop]

theorem decodeByteCtr_pack (cs : List Nat) (h : ∀ c ∈ cs, c < 4) :
    ∀ i, i < cs.length → decodeByteCtr (packBytes cs) i = cs.getD i 0 := by
  induction cs using packBytes.induct with
  | case1 => intro i hi; simp at hi
  | case2 c cs ih =>
      intro i hi
      by_cases h4 : i < 4
      · have hdiv : i / 4 = 0 := by omega
        have hmod : i % 4 = i := by omega
        have htk : i < ((c :: cs).take 4).length := by
          simp only [List.length_take]
          omega
        have hb : ∀ y ∈ (c :: cs).take 4, y < 4 :=
          fun y hy => h y (List.mem_of_mem_take hy)
        simp only [decodeByteCtr, packBytes, hdiv, hmod, List.getD_cons_zero]
        have h2 : (2 : Nat) ^ (2 * i) = 4 ^ i := by
          rw [pow_mul]
          norm_num
        rw [h2, pack2_extract ((c :: cs).take 4) hb i htk, getD_take _ _ _ h4]
      · have hge : 4 ≤ i := by omega
        have hdiv : i / 4 = (i - 4) / 4 + 1 := by omega
        have hmod : i % 4 = (i - 4) % 4 := by omega
        have hlt : i - 4 < ((c :: cs).drop 4).length := by
          simp only [List.length_drop]
          omega
        have hb : ∀ y ∈ (c :: cs).drop 4, y < 4 :=
          fun y hy => h y (List.mem_of_mem_drop hy)
        have hrec := ih hb (i - 4) hlt
        simp only [decodeByteCtr, packBytes, hdiv, hmod, List.getD_cons_succ] at hrec ⊢
        rw [hrec, getD_drop]
        congr 1
        omega

theorem coverListAux_length (cs : List Nat) :
    ∀ k s e, (coverListAux cs k s e).length = cs.length := by
  induction cs with
  | nil => intro k s e; simp [coverListAux]
  | cons c cs ih => intro k s e; simp [coverListAux, ih]

theorem coverListAux_getD (cs : List Nat) :
    ∀ k s e i, i < cs.length →
      (coverListAux cs k s e).getD i 0 =
        if s ≤ k + i ∧ k + i < e then cov_full else cs.getD i 0 := by
  induction cs with
  | nil => intro k s e i hi; simp at hi
  | cons c cs ih =>
      intro k s e i hi
      match i with
      | 0 => simp [coverListAux, List.getD_cons_zero]
      | Nat.succ j =>
          have hj : j < cs.length := by simpa using hi
          simp only [coverListAux, List.getD_cons_succ]
          rw [ih (k + 1) s e j hj]
          have harith : k + 1 + j = k + (j + 1) := by omega
          rw [harith]

theorem coverList_length (cs : List Nat) (s e : Nat) :
    (coverList cs s e).length = cs.length := coverListAux_length cs 0 s e

theorem coverList_getD (cs : List Nat) (s e i : Nat) (hi : i < cs.length) :
    (coverList cs s e).getD i 0 =
      if s ≤ i ∧ i < e then cov_full else cs.getD i 0 := by
  have := coverListAux_getD cs 0 s e i hi
  simpa using this

end CompressedCoverage

end CCov

namespace CCov

namespace CompressedCoverage

theorem allSat_iff_getD (cs : List Nat) :
    allSat cs = true ↔ ∀ i, i < cs.length → cs.getD i 0 = cov_full := by
  simp only [allSat, List.all_eq_true, beq_iff_eq]
  constructor
  · intro h i hi
    have := h (cs.getD i 0) (by
      have : cs.getD i 0 = cs[i] := List.getD_eq_getElem cs 0 hi
      rw [this]
      exact List.getElem_mem hi)
    exact this
  · intro h c hc
    rcases List.mem_iff_getElem.mp hc with ⟨i, hi, rfl⟩
    have := h i hi
    rwa [List.getD_eq_getElem cs 0 hi] at this

theorem allSat_eq_replicate (cs : List Nat) (h : allSat cs = true) :
    cs = List.replicate cs.length cov_full := by
  apply List.ext_getElem
  · simp
  · intro i h1 h2
    have := (allSat_iff_getD cs).mp h i h1
    rw [List.getD_eq_getElem cs 0 h1] at this
    simp [this]

theorem countSat_le (cs : List Nat) : countSat cs ≤ cs.length :=
  List.countP_le_length _

theorem countSat_eq_length_iff (cs : List Nat) :
    countSat cs = cs.length ↔ allSat cs = true := by
  simp only [countSat, allSat]
  rw [List.countP_eq_length, List.all_eq_true]

theorem map_range_eq (n : Nat) (f : Nat → Nat) (l : List Nat) (hl : l.length = n)
    (h : ∀ i, i < n → f i = l.getD i 0) : (List.range n).map f = l := by
  apply List.ext_getElem
  · simp [hl]
  · intro i h1 h2
    simp only [List.getElem_map, List.getElem_range]
    rw [h i (by simpa using h1), List.getD_eq_getElem l 0 h2]

theorem decodeInlineCtr_lt4 (w i : Nat) : decodeInlineCtr w i < 4 :=
  Nat.mod_lt _ (by norm_num)

theorem decodeByteCtr_lt4 (bytes : List Nat) (i : Nat) : decodeByteCtr bytes i < 4 :=
  Nat.mod_lt _ (by norm_num)

theorem toCounters_length (cc : CompressedCoverage) :
    cc.toCounters.length = cc.size := by
  unfold toCounters
  by_cases h1 : cc.fullBit = 1
  · simp [h1]
  · by_cases h2 : cc.tagBit = 1
    · simp [h1, h2]
    · simp only [h1, h2, if_false]
      match hb : cc.buf with
      | some b => simp [size, h1, h2, hb]
      | none => simp [size, h1, h2, hb]

theorem toCounters_lt4 (cc : CompressedCoverage) : ∀ c ∈ cc.toCounters, c < 4 := by
  unfold toCounters
  by_cases h1 : cc.fullBit = 1
  · simp [h1, cov_full]
  · by_cases h2 : cc.tagBit = 1
    · simp only [h1, if_false, h2, if_true]
      intro c hc
      rcases List.mem_map.mp hc with ⟨i, _, rfl⟩
      exact decodeInlineCtr_lt4 _ _
    · simp only [h1, h2, if_false]
      match hb : cc.buf with
      | some b =>
          intro c hc
          rcases List.mem_map.mp hc with ⟨i, _, rfl⟩
          exact decodeByteCtr_lt4 _ _
      | none => simp

theorem covAt_eq_getD (cc : CompressedCoverage) (i : Nat) (hi : i < cc.size) :
    cc.covAt i = cc.toCounters.getD i 0 := by
  unfold covAt toCounters
  by_cases h1 : cc.fullBit = 1
  · simp only [h1, if_true]
    rw [List.getD_eq_getElem _ 0 (by simpa using hi)]
    simp
  · by_cases h2 : cc.tagBit = 1
    · simp only [h1, if_false, h2, if_true]
      rw [List.getD_eq_getElem _ 0 (by simpa using hi)]
      simp
    · simp only [h1, h2, if_false]
      match hb : cc.buf with
      | some b =>
          have hi2 : i < b.total := by
            have := hi
            simp [size, h1, h2, hb] at this
            exact this
          simp only
          rw [List.getD_eq_getElem _ 0 (by simpa using hi2)]
          simp
      | none =>
          have : cc.size = 0 := by simp [size, h1, h2, hb]
          omega

theorem encodeInline_mod4 (cs : List Nat) : encodeInline cs % 4 = 1 := by
  simp only [encodeInline, tagMask]
  omega

theorem tagBit_encodeInline (cs : List Nat) : tagBit ⟨encodeInline cs, none⟩ = 1 := by
  simp only [tagBit, encodeInline, tagMask]
  omega

theorem fullBit_encodeInline (cs : List Nat) : fullBit ⟨encodeInline cs, none⟩ = 0 := by
  simp only [fullBit, encodeInline, tagMask]
  omega

theorem decodeInlineLen_encode (cs : List Nat) (h : cs.length ≤ 63) :
    decodeInlineLen (encodeInline cs) = cs.length := by
  simp only [decodeInlineLen, encodeInline, tagMask]
  omega

theorem encodeInline_div256 (cs : List Nat) (h : cs.length ≤ 63) :
    encodeInline cs / 256 = pack2 cs := by
  simp only [encodeInline, tagMask]
  omega

theorem decodeInlineCtr_encode (cs : List Nat) (h63 : cs.length ≤ 63)
    (h4 : ∀ c ∈ cs, c < 4) (i : Nat) (hi : i < cs.length) :
    decodeInlineCtr (encodeInline cs) i = cs.getD i 0 := by
  simp only [decodeInlineCtr]
  have hp : (2 : Nat) ^ (8 + 2 * i) = 256 * 4 ^ i := by
    rw [pow_add, pow_mul]
    norm_num
  rw [hp, ← Nat.div_div_eq_div_mul, encodeInline_div256 cs h63]
  exact pack2_extract cs h4 i hi

theorem fullBit_mkFull (len : Nat) : (mkFull len).fullBit = 1 := by
  simp only [fullBit, mkFull]
  omega

theorem tagBit_mkFull (len : Nat) : (mkFull len).tagBit = 1 := by
  simp only [tagBit, mkFull]
  omega

theorem size_mkFull (len : Nat) : (mkFull len).size = len := by
  simp only [size, fullBit_mkFull, if_pos]
  simp only [mkFull]
  omega

theorem isFull_mkFull (len : Nat) : (mkFull len).isFull = true := by
  simp [isFull, fullBit_mkFull]

theorem toCounters_mkFull (len : Nat) :
    (mkFull len).toCounters = List.replicate len cov_full := by
  simp [toCounters, fullBit_mkFull, size_mkFull]

theorem covAt_mkFull (len i : Nat) : (mkFull len).covAt i = cov_full := by
  simp [covAt, fullBit_mkFull]

theorem fullBit_mkInline (cs : List Nat) : (mkInline cs).fullBit = 0 := by
  simp only [mkInline]
  exact fullBit_encodeInline cs

theorem tagBit_mkInline (cs : List Nat) : (mkInline cs).tagBit = 1 := by
  simp only [mkInline]
  exact tagBit_encodeInline cs

theorem size_mkInline (cs : List Nat) (h : cs.length ≤ 63) :
    (mkInline cs).size = cs.length := by
  simp only [size, fullBit_mkInline, tagBit_mkInline, if_pos]
  simp only [if_neg (by omega : ¬ (0 : Nat) = 1)]
  simp only [mkInline]
  exact decodeInlineLen_encode cs h

theorem toCounters_mkInline (cs : List Nat) (h63 : cs.length ≤ 63)
    (h4 : ∀ c ∈ cs, c < 4) : (mkInline cs).toCounters = cs := by
  simp only [toCounters, fullBit_mkInline, tagBit_mkInline,
    if_neg (by omega : ¬ (0 : Nat) = 1), if_pos, size_mkInline cs h63]
  exact map_range_eq _ _ _ rfl (fun i hi => by
    simp only [mkInline]
    rw [decodeInlineCtr_encode cs h63 h4 i hi])

theorem isFull_mkInline (cs : List Nat) : (mkInline cs).isFull = false := by
  simp [isFull, fullBit_mkInline, tagBit_mkInline]

theorem fullBit_mkHeap (cs : List Nat) : (mkHeap cs).fullBit = 0 := by
  simp [fullBit, mkHeap]

theorem tagBit_mkHeap (cs : List Nat) : (mkHeap cs).tagBit = 0 := by
  simp [tagBit, mkHeap]

theorem size_mkHeap (cs : List Nat) : (mkHeap cs).size = cs.length := by
  simp [size, mkHeap, fullBit, tagBit]

theorem toCounters_mkHeap (cs : List Nat) (h4 : ∀ c ∈ cs, c < 4) :
    (mkHeap cs).toCounters = cs := by
  unfold toCounters
  rw [fullBit_mkHeap cs, tagBit_mkHeap cs]
  simp only [if_neg (by omega : ¬ (0 : Nat) = 1)]
  show (List.range (HeapBuf.mk cs.length (countSat cs) (packBytes cs)).total).map
      (decodeByteCtr (HeapBuf.mk cs.length (countSat cs) (packBytes cs)).bytes) = cs
  exact map_range_eq _ _ _ rfl (fun i hi => by
    rw [decodeByteCtr_pack cs h4 i hi])

end CompressedCoverage

end CCov

namespace CCov

namespace CompressedCoverage

theorem fullBit_lt2 (cc : CompressedCoverage) : cc.fullBit < 2 := Nat.mod_lt _ (by norm_num)

theorem tagBit_lt2 (cc : CompressedCoverage) : cc.tagBit < 2 := Nat.mod_lt _ (by norm_num)

theorem fullBit_eq_zero_of_not_isFull (cc : CompressedCoverage) (h : cc.isFull = false) :
    cc.fullBit = 0 := by
  simp only [isFull, Bool.or_eq_false_iff] at h
  have h1 := h.1
  have h2 := fullBit_lt2 cc
  simp only [beq_eq_false_iff_ne, ne_eq] at h1
  omega

theorem allSat_replicate (n : Nat) : allSat (List.replicate n cov_full) = true := by
  simp [allSat]

theorem coverList_allSat_self (cs : List Nat) (h : allSat cs = true) (s e : Nat) :
    coverList cs s e = cs := by
  apply List.ext_getElem
  · simp [coverList_length]
  · intro i h1 h2
    have hlen : i < cs.length := h2
    have := coverList_getD cs s e i hlen
    rw [List.getD_eq_getElem _ 0 h1, List.getD_eq_getElem _ 0 h2] at this
    rw [this]
    by_cases hc : s ≤ i ∧ i < e
    · rw [if_pos hc]
      have h3 := (allSat_iff_getD cs).mp h i hlen
      rw [List.getD_eq_getElem _ 0 h2] at h3
      omega
    · rw [if_neg hc]

theorem coverList_lt4 (cs : List Nat) (h : ∀ c ∈ cs, c < 4) (s e : Nat) :
    ∀ c ∈ coverList cs s e, c < 4 := by
  intro c hc
  rcases List.mem_iff_getElem.mp hc with ⟨i, hi, rfl⟩
  have hlen : i < cs.length := by
    have := coverList_length cs s e
    omega
  have := coverList_getD cs s e i hlen
  rw [List.getD_eq_getElem _ 0 hi] at this
  rw [this]
  by_cases hc2 : s ≤ i ∧ i < e
  · simp [hc2, cov_full]
  · simp only [hc2, if_false]
    have : cs.getD i 0 = cs[i] := List.getD_eq_getElem cs 0 hlen
    rw [this]
    exact h _ (List.getElem_mem hlen)

theorem coverList_le2 (cs : List Nat) (h : ∀ c ∈ cs, c ≤ cov_full) (s e : Nat) :
    ∀ c ∈ coverList cs s e, c ≤ cov_full := by
  intro c hc
  rcases List.mem_iff_getElem.mp hc with ⟨i, hi, rfl⟩
  have hlen : i < cs.length := by
    have := coverList_length cs s e
    omega
  have := coverList_getD cs s e i hlen
  rw [List.getD_eq_getElem _ 0 hi] at this
  rw [this]
  by_cases hc2 : s ≤ i ∧ i < e
  · simp [hc2]
  · simp only [hc2, if_false]
    have : cs.getD i 0 = cs[i] := List.getD_eq_getElem cs 0 hlen
    rw [this]
    exact h _ (List.getElem_mem hlen)

theorem getD_forall_of_mem_forall {P : Nat → Prop} (cs : List Nat) (h : ∀ c ∈ cs, P c)
    (i : Nat) (hi : i < cs.length) : P (cs.getD i 0) := by
  rw [List.getD_eq_getElem cs 0 hi]
  exact h _ (List.getElem_mem hi)

theorem cover_eq_of_isFull (cc : CompressedCoverage) (h : cc.isFull = true) (s e : Nat) :
    cc.cover s e = cc := by
  simp [cover, h]

theorem size_of_heap (cc : CompressedCoverage) (b : HeapBuf) (hb : cc.buf = some b)
    (hf : cc.fullBit = 0) (ht : cc.tagBit = 0) : cc.size = b.total := by
  simp [size, hf, ht, hb]

theorem toCounters_of_heap (cc : CompressedCoverage) (b : HeapBuf) (hb : cc.buf = some b)
    (hf : cc.fullBit = 0) (ht : cc.tagBit = 0) :
    cc.toCounters = (List.range b.total).map (decodeByteCtr b.bytes) := by
  simp [toCounters, hf, ht, hb]

theorem size_of_inline (cc : CompressedCoverage) (hf : cc.fullBit = 0) (ht : cc.tagBit = 1) :
    cc.size = decodeInlineLen cc.asBits := by
  simp [size, hf, ht]

theorem toCounters_of_inline (cc : CompressedCoverage) (hf : cc.fullBit = 0)
    (ht : cc.tagBit = 1) :
    cc.toCounters = (List.range (decodeInlineLen cc.asBits)).map (decodeInlineCtr cc.asBits) := by
  simp [toCounters, hf, ht, size_of_inline cc hf ht]

theorem decodeInlineLen_lt64 (w : Nat) : decodeInlineLen w < 64 := Nat.mod_lt _ (by norm_num)

end CompressedCoverage

end CCov

namespace CCov

namespace CompressedCoverage

theorem cover_inline_eq (cc : CompressedCoverage) (hfu : cc.isFull = false)
    (ht : cc.tagBit = 1) (s e : Nat) :
    cc.cover s e =
      if allSat (coverList cc.toCounters s e) then mkFull cc.size
      else mkInline (coverList cc.toCounters s e) := by
  simp [cover, hfu, ht, mkInline]

theorem cover_heap_eq (cc : CompressedCoverage) (b : HeapBuf) (hb : cc.buf = some b)
    (hfu : cc.isFull = false) (ht : cc.tagBit = 0) (s e : Nat) :
    cc.cover s e =
      if allSat (coverList cc.toCounters s e) then mkFull b.total
      else ⟨0, some ⟨b.total, countSat (coverList cc.toCounters s e),
                     packBytes (coverList cc.toCounters s e)⟩⟩ := by
  simp [cover, hfu, ht, hb]

theorem cover_none_eq (cc : CompressedCoverage) (hb : cc.buf = none)
    (hfu : cc.isFull = false) (ht : cc.tagBit = 0) (s e : Nat) :
    cc.cover s e = cc := by
  simp [cover, hfu, ht, hb]

theorem toCounters_none (cc : CompressedCoverage) (hb : cc.buf = none)
    (hfb : cc.fullBit = 0) (ht : cc.tagBit = 0) : cc.toCounters = [] := by
  simp [toCounters, hfb, ht, hb]

theorem tagBit_eq_zero (cc : CompressedCoverage) (ht : ¬ cc.tagBit = 1) :
    cc.tagBit = 0 := by
  have := tagBit_lt2 cc
  omega

theorem isFull_eq_false (cc : CompressedCoverage) (h : ¬ cc.isFull = true) :
    cc.isFull = false := by
  cases hf : cc.isFull
  · rfl
  · exact absurd hf h

theorem cover_core (cc : CompressedCoverage) (hh : honest cc) (s e : Nat) :
    (cc.cover s e).toCounters = coverList cc.toCounters s e ∧
    (cc.cover s e).size = cc.size := by
  by_cases hfu : cc.isFull = true
  · rw [cover_eq_of_isFull cc hfu s e]
    have habs := hh hfu
    refine ⟨?_, rfl⟩
    rw [habs, coverList_allSat_self _ (allSat_replicate _) s e]
  · have hfu2 : cc.isFull = false := isFull_eq_false cc hfu
    have hfb : cc.fullBit = 0 := fullBit_eq_zero_of_not_isFull cc hfu2
    by_cases ht : cc.tagBit = 1
    · rw [cover_inline_eq cc hfu2 ht s e]
      have hlen2 : (coverList cc.toCounters s e).length = cc.size := by
        rw [coverList_length, toCounters_length]
      by_cases hall : allSat (coverList cc.toCounters s e) = true
      · rw [if_pos hall]
        refine ⟨?_, size_mkFull _⟩
        rw [toCounters_mkFull]
        have h2 := allSat_eq_replicate _ hall
        rw [hlen2] at h2
        exact h2.symm
      · rw [if_neg hall]
        have h63 : (coverList cc.toCounters s e).length ≤ 63 := by
          rw [hlen2, size_of_inline cc hfb ht]
          have := decodeInlineLen_lt64 cc.asBits
          omega
        have h4 : ∀ c ∈ coverList cc.toCounters s e, c < 4 :=
          coverList_lt4 _ (toCounters_lt4 cc) s e
        refine ⟨toCounters_mkInline _ h63 h4, ?_⟩
        rw [size_mkInline _ h63, hlen2]
    · have ht0 : cc.tagBit = 0 := tagBit_eq_zero cc ht
      cases hb : cc.buf with
      | some b =>
          rw [cover_heap_eq cc b hb hfu2 ht0 s e]
          have hsz : cc.size = b.total := size_of_heap cc b hb hfb ht0
          have hlen2 : (coverList cc.toCounters s e).length = b.total := by
            rw [coverList_length, toCounters_length, hsz]
          by_cases hall : allSat (coverList cc.toCounters s e) = true
          · rw [if_pos hall]
            refine ⟨?_, by rw [size_mkFull, hsz]⟩
            rw [toCounters_mkFull]
            have h2 := allSat_eq_replicate _ hall
            rw [hlen2] at h2
            exact h2.symm
          · rw [if_neg hall]
            have h4 : ∀ c ∈ coverList cc.toCounters s e, c < 4 :=
              coverList_lt4 _ (toCounters_lt4 cc) s e
            have hmk : (⟨0, some ⟨b.total, countSat (coverList cc.toCounters s e),
                           packBytes (coverList cc.toCounters s e)⟩⟩ :
                         CompressedCoverage) = mkHeap (coverList cc.toCounters s e) := by
              simp only [mkHeap, hlen2]
            rw [hmk]
            refine ⟨toCounters_mkHeap _ h4, ?_⟩
            rw [size_mkHeap, hlen2, hsz]
      | none =>
          rw [cover_none_eq cc hb hfu2 ht0 s e]
          refine ⟨?_, rfl⟩
          rw [toCounters_none cc hb hfb ht0]
          rfl

theorem toCounters_cover (cc : CompressedCoverage) (hh : honest cc) (s e : Nat) :
    (cc.cover s e).toCounters = coverList cc.toCounters s e :=
  (cover_core cc hh s e).1

theorem size_cover (cc : CompressedCoverage) (hh : honest cc) (s e : Nat) :
    (cc.cover s e).size = cc.size :=
  (cover_core cc hh s e).2

theorem isFull_cover_allSat (cc : CompressedCoverage) (hh : honest cc) (s e : Nat)
    (hf2 : (cc.cover s e).isFull = true) :
    allSat (coverList cc.toCounters s e) = true := by
  by_cases hfu : cc.isFull = true
  · have habs := hh hfu
    rw [habs, coverList_allSat_self _ (allSat_replicate _) s e]
    exact allSat_replicate _
  · have hfu2 : cc.isFull = false := isFull_eq_false cc hfu
    have hfb : cc.fullBit = 0 := fullBit_eq_zero_of_not_isFull cc hfu2
    by_cases hall : allSat (coverList cc.toCounters s e) = true
    · exact hall
    · exfalso
      by_cases ht : cc.tagBit = 1
      · rw [cover_inline_eq cc hfu2 ht s e, if_neg hall] at hf2
        rw [isFull_mkInline] at hf2
        exact Bool.false_ne_true hf2
      · have ht0 : cc.tagBit = 0 := tagBit_eq_zero cc ht
        cases hb : cc.buf with
        | some b =>
            rw [cover_heap_eq cc b hb hfu2 ht0 s e, if_neg hall] at hf2
            have hlen2 : (coverList cc.toCounters s e).length = b.total := by
              rw [coverList_length, toCounters_length, size_of_heap cc b hb hfb ht0]
            simp only [isFull, fullBit, tagBit] at hf2
            norm_num at hf2
            rw [hlen2.symm] at hf2
            rw [countSat_eq_length_iff] at hf2
            exact hall hf2
        | none =>
            rw [cover_none_eq cc hb hfu2 ht0 s e] at hf2
            rw [hfu2] at hf2
            exact Bool.false_ne_true hf2

theorem honest_cover (cc : CompressedCoverage) (hh : honest cc) (s e : Nat) :
    honest (cc.cover s e) := by
  intro hf2
  have hcore := cover_core cc hh s e
  rw [hcore.1, hcore.2]
  have hall := isFull_cover_allSat cc hh s e hf2
  have h2 := allSat_eq_replicate _ hall
  rw [coverList_length, toCounters_length] at h2
  exact h2

end CompressedCoverage

end CCov

namespace CCov

namespace CompressedCoverage

theorem WF_heap_elim (cc : CompressedCoverage) (b : HeapBuf) (h : WF cc)
    (hb : cc.buf = some b) :
    cc.asBits = 0 ∧ b.bytes.length = round_to_bytes b.total ∧
    (∀ x ∈ b.bytes, x < 256) ∧
    (∀ i, i < b.total → decodeByteCtr b.bytes i ≤ cov_full) ∧
    b.filled = countSat ((List.range b.total).map (decodeByteCtr b.bytes)) ∧
    b.filled < b.total := by
  unfold WF at h
  rw [hb] at h
  exact h

theorem WF_none_elim (cc : CompressedCoverage) (h : WF cc) (hb : cc.buf = none) :
    cc.asBits % 4 = 3 ∨
    (cc.asBits % 4 = 1 ∧
     decodeInlineLen cc.asBits ≤ size_limit ∧
     cc.asBits / 2 ^ 8 < 4 ^ decodeInlineLen cc.asBits ∧
     (∀ i, i < decodeInlineLen cc.asBits → decodeInlineCtr cc.asBits i ≤ cov_full) ∧
     (0 < decodeInlineLen cc.asBits →
       ∃ i, i < decodeInlineLen cc.asBits ∧ decodeInlineCtr cc.asBits i ≠ cov_full)) := by
  unfold WF at h
  rw [hb] at h
  exact h

theorem WF_mkFull (len : Nat) : WF (mkFull len) := by
  simp only [WF, mkFull]
  left
  omega

theorem fullBit_of_mod4_three (cc : CompressedCoverage) (h : cc.asBits % 4 = 3) :
    cc.fullBit = 1 := by
  simp only [fullBit]
  omega

theorem bits_of_mod4_one (cc : CompressedCoverage) (h : cc.asBits % 4 = 1) :
    cc.fullBit = 0 ∧ cc.tagBit = 1 := by
  simp only [fullBit, tagBit]
  omega

theorem WF_buf_none_of_tag (cc : CompressedCoverage) (h : WF cc) (ht : cc.tagBit = 1) :
    cc.buf = none := by
  cases hb : cc.buf with
  | none => rfl
  | some b =>
      have := (WF_heap_elim cc b h hb).1
      simp only [tagBit, this] at ht
      omega

theorem toCounters_le2 (cc : CompressedCoverage) (h : WF cc) :
    ∀ c ∈ cc.toCounters, c ≤ cov_full := by
  intro c hc
  by_cases hfb : cc.fullBit = 1
  · unfold toCounters at hc
    rw [if_pos hfb] at hc
    have := List.eq_of_mem_replicate hc
    omega
  · have hfb0 : cc.fullBit = 0 := by
      have := fullBit_lt2 cc
      omega
    by_cases ht : cc.tagBit = 1
    · have hb := WF_buf_none_of_tag cc h ht
      rcases WF_none_elim cc h hb with h3 | h1
      · exact absurd (fullBit_of_mod4_three cc h3) (by omega)
      · rw [toCounters_of_inline cc hfb0 ht] at hc
        rcases List.mem_map.mp hc with ⟨i, hi, rfl⟩
        exact h1.2.2.2.1 i (List.mem_range.mp hi)
    · have ht0 : cc.tagBit = 0 := tagBit_eq_zero cc ht
      cases hb : cc.buf with
      | some b =>
          have hel := WF_heap_elim cc b h hb
          rw [toCounters_of_heap cc b hb hfb0 ht0] at hc
          rcases List.mem_map.mp hc with ⟨i, hi, rfl⟩
          exact hel.2.2.2.1 i (List.mem_range.mp hi)
      | none =>
          rw [toCounters_none cc hb hfb0 ht0] at hc
          simp at hc

theorem WF_honest (cc : CompressedCoverage) (h : WF cc) : honest cc := by
  intro hf
  cases hb : cc.buf with
  | some b =>
      have hel := WF_heap_elim cc b h hb
      have hfb : cc.fullBit = 0 := by
        simp only [fullBit, hel.1]
      have ht : cc.tagBit = 0 := by
        simp only [tagBit, hel.1]
      simp only [isFull, hfb, ht, hb] at hf
      norm_num at hf
      have := hel.2.2.2.2.2
      omega
  | none =>
      rcases WF_none_elim cc h hb with h3 | h1
      · have hfb := fullBit_of_mod4_three cc h3
        simp [toCounters, hfb]
      · have hbits := bits_of_mod4_one cc h1.1
        simp only [isFull, hbits.1, hbits.2, hb] at hf
        norm_num at hf

theorem isFull_shape (cc : CompressedCoverage) (h : WF cc) (hf : cc.isFull = true) :
    cc.asBits % 4 = 3 ∧ cc.buf = none := by
  cases hb : cc.buf with
  | some b =>
      have hel := WF_heap_elim cc b h hb
      have hfb : cc.fullBit = 0 := by simp only [fullBit, hel.1]
      have ht : cc.tagBit = 0 := by simp only [tagBit, hel.1]
      simp only [isFull, hfb, ht, hb] at hf
      norm_num at hf
      have := hel.2.2.2.2.2
      omega
  | none =>
      rcases WF_none_elim cc h hb with h3 | h1
      · exact ⟨h3, rfl⟩
      · have hbits := bits_of_mod4_one cc h1.1
        simp only [isFull, hbits.1, hbits.2, hb] at hf
        norm_num at hf

theorem WF_mkInline (cs : List Nat) (hlen : cs.length ≤ size_limit)
    (hle : ∀ c ∈ cs, c ≤ cov_full) (hnotall : allSat cs = false) :
    WF (mkInline cs) := by
  have h63 : cs.length ≤ 63 := by
    simp only [size_limit] at hlen
    omega
  have h4 : ∀ c ∈ cs, c < 4 := by
    intro c hc
    have := hle c hc
    simp only [cov_full] at this
    omega
  simp only [WF, mkInline]
  right
  refine ⟨encodeInline_mod4 cs, ?_, ?_, ?_, ?_⟩
  · rw [decodeInlineLen_encode cs h63]
    exact hlen
  · rw [decodeInlineLen_encode cs h63]
    have h256 : (2 : Nat) ^ 8 = 256 := by norm_num
    rw [h256, encodeInline_div256 cs h63]
    exact pack2_lt cs h4
  · rw [decodeInlineLen_encode cs h63]
    intro i hi
    rw [decodeInlineCtr_encode cs h63 h4 i hi]
    exact getD_forall_of_mem_forall cs hle i hi
  · rw [decodeInlineLen_encode cs h63]
    intro hpos
    have hex : ∃ i, i < cs.length ∧ cs.getD i 0 ≠ cov_full := by
      by_contra hno
      push_neg at hno
      have : allSat cs = true := (allSat_iff_getD cs).mpr hno
      rw [this] at hnotall
      simp at hnotall
    rcases hex with ⟨i, hi, hne⟩
    exact ⟨i, hi, by rw [decodeInlineCtr_encode cs h63 h4 i hi]; exact hne⟩

theorem countSat_map_decode (cs : List Nat) (h4 : ∀ c ∈ cs, c < 4) :
    countSat ((List.range cs.length).map (decodeByteCtr (packBytes cs))) = countSat cs := by
  have : (List.range cs.length).map (decodeByteCtr (packBytes cs)) = cs :=
    map_range_eq _ _ _ rfl (fun i hi => by rw [decodeByteCtr_pack cs h4 i hi])
  rw [this]

theorem WF_mkHeap (cs : List Nat) (hle : ∀ c ∈ cs, c ≤ cov_full)
    (hnotall : allSat cs = false) : WF (mkHeap cs) := by
  have h4 : ∀ c ∈ cs, c < 4 := by
    intro c hc
    have := hle c hc
    simp only [cov_full] at this
    omega
  simp only [WF, mkHeap]
  refine ⟨trivial, packBytes_length cs, packBytes_lt256 cs h4, ?_, ?_, ?_⟩
  · intro i hi
    rw [decodeByteCtr_pack cs h4 i hi]
    exact getD_forall_of_mem_forall cs hle i hi
  · rw [countSat_map_decode cs h4]
  · have hle2 := countSat_le cs
    have hne : countSat cs ≠ cs.length := by
      intro heq
      have := (countSat_eq_length_iff cs).mp heq
      rw [this] at hnotall
      simp at hnotall
    omega

theorem WF_cover (cc : CompressedCoverage) (h : WF cc) (s e : Nat) :
    WF (cc.cover s e) := by
  by_cases hfu : cc.isFull = true
  · rw [cover_eq_of_isFull cc hfu s e]
    exact h
  · have hfu2 : cc.isFull = false := isFull_eq_false cc hfu
    have hfb : cc.fullBit = 0 := fullBit_eq_zero_of_not_isFull cc hfu2
    have hle2 : ∀ c ∈ coverList cc.toCounters s e, c ≤ cov_full :=
      coverList_le2 _ (toCounters_le2 cc h) s e
    by_cases ht : cc.tagBit = 1
    · rw [cover_inline_eq cc hfu2 ht s e]
      by_cases hall : allSat (coverList cc.toCounters s e) = true
      · rw [if_pos hall]
        exact WF_mkFull _
      · rw [if_neg hall]
        have hnot : allSat (coverList cc.toCounters s e) = false := by
          cases hx : allSat (coverList cc.toCounters s e)
          · rfl
          · exact absurd hx hall
        apply WF_mkInline _ _ hle2 hnot
        rw [coverList_length, toCounters_length, size_of_inline cc hfb ht]
        have hb := WF_buf_none_of_tag cc h ht
        rcases WF_none_elim cc h hb with h3 | h1
        · exact absurd (fullBit_of_mod4_three cc h3) (by omega)
        · exact h1.2.1
    · have ht0 : cc.tagBit = 0 := tagBit_eq_zero cc ht
      cases hb : cc.buf with
      | some b =>
          rw [cover_heap_eq cc b hb hfu2 ht0 s e]
          by_cases hall : allSat (coverList cc.toCounters s e) = true
          · rw [if_pos hall]
            exact WF_mkFull _
          · rw [if_neg hall]
            have hnot : allSat (coverList cc.toCounters s e) = false := by
              cases hx : allSat (coverList cc.toCounters s e)
              · rfl
              · exact absurd hx hall
            have hlen2 : (coverList cc.toCounters s e).length = b.total := by
              rw [coverList_length, toCounters_length, size_of_heap cc b hb hfb ht0]
            have hmk : (⟨0, some ⟨b.total, countSat (coverList cc.toCounters s e),
                           packBytes (coverList cc.toCounters s e)⟩⟩ :
                         CompressedCoverage) = mkHeap (coverList cc.toCounters s e) := by
              simp only [mkHeap, hlen2]
            rw [hmk]
            exact WF_mkHeap _ hle2 hnot
      | none =>
          rw [cover_none_eq cc hb hfu2 ht0 s e]
          exact h

theorem WF_initCC (sz : Nat) (f : Bool) : WF (initCC sz f) := by
  cases f with
  | true =>
      simp only [initCC, if_pos]
      exact WF_mkFull sz
  | false =>
      by_cases hsz : sz ≤ size_limit
      · simp only [initCC, Bool.false_eq_true, if_false, if_pos hsz]
        simp only [WF]
        right
        have hmod : (tagMask + 4 * sz) % 4 = 1 := by
          simp only [tagMask]
          omega
        have hlen : decodeInlineLen (tagMask + 4 * sz) = sz := by
          simp only [decodeInlineLen, tagMask, size_limit] at *
          omega
        refine ⟨hmod, ?_, ?_, ?_, ?_⟩
        · rw [hlen]
          exact hsz
        · rw [hlen]
          have hz : (tagMask + 4 * sz) / 2 ^ 8 = 0 := by
            simp only [tagMask, size_limit] at *
            omega
          rw [hz]
          positivity
        · intro i hi
          have hz : decodeInlineCtr (tagMask + 4 * sz) i = 0 := by
            simp only [decodeInlineCtr, tagMask]
            have h1 : (256 : Nat) ≤ 2 ^ (8 + 2 * i) := by
              calc (256 : Nat) = 2 ^ 8 := by norm_num
              _ ≤ 2 ^ (8 + 2 * i) := Nat.pow_le_pow_right (by norm_num) (by omega)
            have h2 : 1 + 4 * sz < 256 := by
              simp only [size_limit] at hsz
              omega
            have h3 : (1 + 4 * sz) / 2 ^ (8 + 2 * i) = 0 := Nat.div_eq_of_lt (by omega)
            omega
          rw [hz]
          simp [cov_full]
        · rw [hlen]
          intro hpos
          refine ⟨0, hpos, ?_⟩
          have hz : decodeInlineCtr (tagMask + 4 * sz) 0 = 0 := by
            simp only [decodeInlineCtr, tagMask]
            have h2 : 1 + 4 * sz < 256 := by
              simp only [size_limit] at hsz
              omega
            norm_num
            omega
          rw [hz]
          simp [cov_full]
      · simp only [initCC, Bool.false_eq_true, if_false, if_neg hsz]
        simp only [WF]
        have hdec : ∀ i, decodeByteCtr (List.replicate (round_to_bytes sz) 0) i = 0 := by
          intro i
          simp only [decodeByteCtr]
          have : (List.replicate (round_to_bytes sz) 0).getD (i / 4) 0 = 0 := by
            by_cases hlt : i / 4 < round_to_bytes sz
            · rw [List.getD_eq_getElem _ 0 (by simpa using hlt)]
              simp
            · rw [List.getD_eq_default]
              simpa using hlt
          rw [this]
          simp
        refine ⟨trivial, by simp, by simp, ?_, ?_, ?_⟩
        · intro i hi
          rw [hdec i]
          simp [cov_full]
        · have : ∀ c ∈ (List.range sz).map (decodeByteCtr (List.replicate (round_to_bytes sz) 0)),
              ¬ (c == cov_full) = true := by
            intro c hc
            rcases List.mem_map.mp hc with ⟨i, _, rfl⟩
            rw [hdec i]
            simp [cov_full]
          simp only [countSat]
          rw [List.countP_eq_zero.mpr this]
        · simp only [size_limit] at hsz
          omega

theorem WF_setFull (cc : CompressedCoverage) : WF (cc.setFull) := WF_mkFull _

end CompressedCoverage

end CCov

namespace CCov

namespace CompressedCoverage

theorem getD_map_range (n : Nat) (f : Nat → Nat) (i : Nat) (hi : i < n) :
    ((List.range n).map f).getD i 0 = f i := by
  rw [List.getD_eq_getElem _ 0 (by simpa using hi)]
  simp

theorem covAt_cover_sat (cc : CompressedCoverage) (hh : honest cc) (s e i : Nat)
    (hs : s ≤ i) (he : i < e) (hi : i < cc.size) :
    (cc.cover s e).covAt i = cov_full := by
  have hi2 : i < (cc.cover s e).size := by
    rw [size_cover cc hh]
    exact hi
  rw [covAt_eq_getD _ i hi2, toCounters_cover cc hh]
  have hlen : i < cc.toCounters.length := by
    rw [toCounters_length]
    exact hi
  rw [coverList_getD _ s e i hlen, if_pos ⟨hs, he⟩]

theorem covAt_cover_out (cc : CompressedCoverage) (hh : honest cc) (s e i : Nat)
    (hout : i < s ∨ e ≤ i) (hi : i < cc.size) :
    (cc.cover s e).covAt i = cc.covAt i := by
  have hi2 : i < (cc.cover s e).size := by
    rw [size_cover cc hh]
    exact hi
  rw [covAt_eq_getD _ i hi2, toCounters_cover cc hh]
  have hlen : i < cc.toCounters.length := by
    rw [toCounters_length]
    exact hi
  rw [coverList_getD _ s e i hlen, if_neg (by omega), ← covAt_eq_getD cc i hi]

theorem covAt_le2 (cc : CompressedCoverage) (h : WF cc) (i : Nat) (hi : i < cc.size) :
    cc.covAt i ≤ cov_full := by
  rw [covAt_eq_getD cc i hi]
  exact getD_forall_of_mem_forall _ (toCounters_le2 cc h) i
    (by rw [toCounters_length]; exact hi)

theorem covAt_cover_mono (cc : CompressedCoverage) (h : WF cc) (s e i : Nat)
    (hi : i < cc.size) : cc.covAt i ≤ (cc.cover s e).covAt i := by
  have hh := WF_honest cc h
  by_cases hin : s ≤ i ∧ i < e
  · rw [covAt_cover_sat cc hh s e i hin.1 hin.2 hi]
    exact covAt_le2 cc h i hi
  · rw [covAt_cover_out cc hh s e i (by omega) hi]

theorem covAt_cover_sat_persist (cc : CompressedCoverage) (h : WF cc) (s e i : Nat)
    (hi : i < cc.size) (hsat : cc.covAt i = cov_full) :
    (cc.cover s e).covAt i = cov_full := by
  have h1 := covAt_cover_mono cc h s e i hi
  have h2 : (cc.cover s e).covAt i ≤ cov_full := by
    apply covAt_le2 _ (WF_cover cc h s e) i
    rw [size_cover cc (WF_honest cc h)]
    exact hi
  omega

theorem applyOps_nil (cc : CompressedCoverage) : applyOps cc [] = cc := rfl

theorem applyOps_cons (cc : CompressedCoverage) (op : Nat × Nat) (ops : List (Nat × Nat)) :
    applyOps cc (op :: ops) = applyOps (cc.cover op.1 op.2) ops := rfl

theorem WF_applyOps (cc : CompressedCoverage) (h : WF cc) (ops : List (Nat × Nat)) :
    WF (applyOps cc ops) := by
  induction ops generalizing cc with
  | nil => exact h
  | cons op ops ih =>
      rw [applyOps_cons]
      exact ih _ (WF_cover cc h op.1 op.2)

theorem size_applyOps (cc : CompressedCoverage) (h : WF cc) (ops : List (Nat × Nat)) :
    (applyOps cc ops).size = cc.size := by
  induction ops generalizing cc with
  | nil => rfl
  | cons op ops ih =>
      rw [applyOps_cons, ih _ (WF_cover cc h op.1 op.2),
        size_cover cc (WF_honest cc h)]

theorem covAt_applyOps_mono (cc : CompressedCoverage) (h : WF cc)
    (ops : List (Nat × Nat)) (i : Nat) (hi : i < cc.size) :
    cc.covAt i ≤ (applyOps cc ops).covAt i := by
  induction ops generalizing cc with
  | nil => exact le_refl _
  | cons op ops ih =>
      rw [applyOps_cons]
      calc cc.covAt i ≤ (cc.cover op.1 op.2).covAt i := covAt_cover_mono cc h op.1 op.2 i hi
      _ ≤ (applyOps (cc.cover op.1 op.2) ops).covAt i := by
          apply ih _ (WF_cover cc h op.1 op.2)
          rw [size_cover cc (WF_honest cc h)]
          exact hi

theorem allSat_coverList_of (cs : List Nat) (s e : Nat)
    (h : ∀ i, i < cs.length → (s ≤ i ∧ i < e) ∨ cs.getD i 0 = cov_full) :
    allSat (coverList cs s e) = true := by
  apply (allSat_iff_getD _).mpr
  intro i hi
  rw [coverList_length] at hi
  rw [coverList_getD cs s e i hi]
  rcases h i hi with hin | hsat
  · rw [if_pos hin]
  · by_cases hin : s ≤ i ∧ i < e
    · rw [if_pos hin]
    · rw [if_neg hin]
      exact hsat

theorem cover_eq_mkFull_of_allSat (cc : CompressedCoverage) (h : WF cc) (s e : Nat)
    (hall : allSat (coverList cc.toCounters s e) = true) :
    cc.cover s e = mkFull cc.size := by
  by_cases hfu : cc.isFull = true
  · rw [cover_eq_of_isFull cc hfu s e]
    have hsh := isFull_shape cc h hfu
    have hfb : cc.fullBit = 1 := fullBit_of_mod4_three cc hsh.1
    have hsz : cc.size = cc.asBits / 4 := by
      simp [size, hfb]
    cases cc with
    | mk w b =>
        simp only [mkFull]
        simp only at hsh hsz
        congr 1
        · simp only [hsz]
          omega
        · exact hsh.2
  · have hfu2 : cc.isFull = false := isFull_eq_false cc hfu
    have hfb : cc.fullBit = 0 := fullBit_eq_zero_of_not_isFull cc hfu2
    by_cases ht : cc.tagBit = 1
    · rw [cover_inline_eq cc hfu2 ht s e, if_pos hall]
    · have ht0 : cc.tagBit = 0 := tagBit_eq_zero cc ht
      cases hb : cc.buf with
      | some b =>
          rw [cover_heap_eq cc b hb hfu2 ht0 s e, if_pos hall,
            size_of_heap cc b hb hfb ht0]
      | none =>
          exfalso
          rcases WF_none_elim cc h hb with h3 | h1
          · have := fullBit_of_mod4_three cc h3
            omega
          · have := (bits_of_mod4_one cc h1.1).2
            omega

/-- Positions covered by at least one operation of a sequence. -/
def coveredBy (ops : List (Nat × Nat)) (i : Nat) : Prop :=
  ∃ p ∈ ops, p.1 ≤ i ∧ i < p.2

theorem applyOps_full (ops : List (Nat × Nat)) :
    ∀ cc : CompressedCoverage, WF cc → ops ≠ [] →
    (∀ i, i < cc.size → coveredBy ops i ∨ cc.covAt i = cov_full) →
    applyOps cc ops = mkFull cc.size := by
  induction ops with
  | nil => intro cc _ hne _; exact absurd rfl hne
  | cons op rest ih =>
      intro cc h _ hcov
      rw [applyOps_cons]
      have hh := WF_honest cc h
      by_cases hrest : rest = []
      · subst hrest
        rw [applyOps_nil]
        apply cover_eq_mkFull_of_allSat cc h op.1 op.2
        apply allSat_coverList_of
        intro i hi
        rw [toCounters_length] at hi
        rcases hcov i hi with ⟨p, hp, hcover⟩ | hsat
        · simp only [List.mem_singleton] at hp
          subst hp
          left
          exact hcover
        · right
          rw [← covAt_eq_getD cc i hi]
          exact hsat
      · have hwf2 : WF (cc.cover op.1 op.2) := WF_cover cc h op.1 op.2
        have hsz2 : (cc.cover op.1 op.2).size = cc.size := size_cover cc hh op.1 op.2
        have hcov2 : ∀ i, i < (cc.cover op.1 op.2).size →
            coveredBy rest i ∨ (cc.cover op.1 op.2).covAt i = cov_full := by
          intro i hi
          rw [hsz2] at hi
          rcases hcov i hi with ⟨p, hp, hcover⟩ | hsat
          · rcases List.mem_cons.mp hp with hp1 | hp2
            · right
              rw [hp1] at hcover
              exact covAt_cover_sat cc hh op.1 op.2 i hcover.1 hcover.2 hi
            · left
              exact ⟨p, hp2, hcover⟩
          · right
            exact covAt_cover_sat_persist cc h op.1 op.2 i hi hsat
        rw [ih (cc.cover op.1 op.2) hwf2 hrest hcov2, hsz2]

theorem cover_layout (cc : CompressedCoverage) (h : WF cc) (s e : Nat)
    (hnf : (cc.cover s e).isFull = false) :
    (cc.cover s e).tagBit = cc.tagBit ∧ ((cc.cover s e).buf).isSome = (cc.buf).isSome := by
  by_cases hfu : cc.isFull = true
  · rw [cover_eq_of_isFull cc hfu s e]
    exact ⟨rfl, rfl⟩
  · have hfu2 : cc.isFull = false := isFull_eq_false cc hfu
    have hfb : cc.fullBit = 0 := fullBit_eq_zero_of_not_isFull cc hfu2
    by_cases ht : cc.tagBit = 1
    · have hbn := WF_buf_none_of_tag cc h ht
      have heq : cc.cover s e = mkInline (coverList cc.toCounters s e) := by
        rw [cover_inline_eq cc hfu2 ht s e]
        by_cases hall : allSat (coverList cc.toCounters s e) = true
        · exfalso
          rw [cover_inline_eq cc hfu2 ht s e, if_pos hall, isFull_mkFull] at hnf
          simp at hnf
        · rw [if_neg hall]
      rw [heq, hbn]
      exact ⟨by rw [tagBit_mkInline, ht], rfl⟩
    · have ht0 : cc.tagBit = 0 := tagBit_eq_zero cc ht
      cases hb : cc.buf with
      | some b =>
          have heq : cc.cover s e =
              ⟨0, some ⟨b.total, countSat (coverList cc.toCounters s e),
                 packBytes (coverList cc.toCounters s e)⟩⟩ := by
            rw [cover_heap_eq cc b hb hfu2 ht0 s e]
            by_cases hall : allSat (coverList cc.toCounters s e) = true
            · exfalso
              rw [cover_heap_eq cc b hb hfu2 ht0 s e, if_pos hall, isFull_mkFull] at hnf
              simp at hnf
            · rw [if_neg hall]
          rw [heq]
          constructor
          · rw [ht0]
            rfl
          · rfl
      | none =>
          rw [cover_none_eq cc hb hfu2 ht0 s e, hb]
          exact ⟨rfl, rfl⟩

theorem allSat_toCounters_false (cc : CompressedCoverage) (h : WF cc)
    (hfu : cc.isFull = false) (hpos : 0 < cc.size) :
    allSat cc.toCounters = false := by
  have hfb : cc.fullBit = 0 := fullBit_eq_zero_of_not_isFull cc hfu
  cases hx : allSat cc.toCounters
  · rfl
  · exfalso
    by_cases ht : cc.tagBit = 1
    · have hb := WF_buf_none_of_tag cc h ht
      rcases WF_none_elim cc h hb with h3 | h1
      · have := fullBit_of_mod4_three cc h3
        omega
      · have hlen : cc.size = decodeInlineLen cc.asBits := size_of_inline cc hfb ht
        rcases h1.2.2.2.2 (by omega) with ⟨i, hi, hne⟩
        have := (allSat_iff_getD _).mp hx i (by
          rw [toCounters_length, hlen]
          exact hi)
        rw [toCounters_of_inline cc hfb ht, getD_map_range _ _ i hi] at this
        exact hne this
    · have ht0 : cc.tagBit = 0 := tagBit_eq_zero cc ht
      cases hb : cc.buf with
      | some b =>
          have hel := WF_heap_elim cc b h hb
          have hcnt : countSat cc.toCounters = b.filled := by
            rw [toCounters_of_heap cc b hb hfb ht0]
            exact hel.2.2.2.2.1.symm
          have hlen : cc.toCounters.length = b.total := by
            rw [toCounters_length, size_of_heap cc b hb hfb ht0]
          have := (countSat_eq_length_iff cc.toCounters).mpr hx
          rw [hcnt, hlen] at this
          have := hel.2.2.2.2.2
          omega
      | none =>
          have : cc.size = 0 := by
            simp [size, hfb, ht0, hb]
          omega

theorem coverList_eq_self_of_sat (cs : List Nat) (s e : Nat)
    (h : ∀ i, i < cs.length → s ≤ i → i < e → cs.getD i 0 = cov_full) :
    coverList cs s e = cs := by
  apply List.ext_getElem
  · simp [coverList_length]
  · intro i h1 h2
    have hlen : i < cs.length := h2
    have hg := coverList_getD cs s e i hlen
    rw [List.getD_eq_getElem _ 0 h1, List.getD_eq_getElem _ 0 h2] at hg
    rw [hg]
    by_cases hc : s ≤ i ∧ i < e
    · rw [if_pos hc]
      have h3 := h i hlen hc.1 hc.2
      rw [List.getD_eq_getElem _ 0 h2] at h3
      omega
    · rw [if_neg hc]

theorem isFull_cover_covered (cc : CompressedCoverage) (h : WF cc) (s e : Nat)
    (hpos : 0 < cc.size)
    (hcov : ∀ i, s ≤ i → i < e → cc.covAt i = cov_full) :
    (cc.cover s e).isFull = cc.isFull := by
  by_cases hfu : cc.isFull = true
  · rw [cover_eq_of_isFull cc hfu s e]
  · have hfu2 : cc.isFull = false := isFull_eq_false cc hfu
    have hfb : cc.fullBit = 0 := fullBit_eq_zero_of_not_isFull cc hfu2
    have hself : coverList cc.toCounters s e = cc.toCounters := by
      apply coverList_eq_self_of_sat
      intro i hi hs he
      rw [toCounters_length] at hi
      rw [← covAt_eq_getD cc i hi]
      exact hcov i hs he
    have hallf : allSat cc.toCounters = false := allSat_toCounters_false cc h hfu2 hpos
    by_cases ht : cc.tagBit = 1
    · rw [cover_inline_eq cc hfu2 ht s e, hself, if_neg (by rw [hallf]; simp)]
      rw [isFull_mkInline, hfu2]
    · have ht0 : cc.tagBit = 0 := tagBit_eq_zero cc ht
      cases hb : cc.buf with
      | some b =>
          rw [cover_heap_eq cc b hb hfu2 ht0 s e, hself, if_neg (by rw [hallf]; simp)]
          have hel := WF_heap_elim cc b h hb
          have hcnt : countSat cc.toCounters = b.filled := by
            rw [toCounters_of_heap cc b hb hfb ht0]
            exact hel.2.2.2.2.1.symm
          rw [hfu2]
          simp only [isFull, fullBit, tagBit]
          norm_num
          rw [hcnt]
          have := hel.2.2.2.2.2
          omega
      | none =>
          rw [cover_none_eq cc hb hfu2 ht0 s e]

end CompressedCoverage

end CCov

namespace CCov

namespace CompressedCoverage

/-- A run of zero counters of length `l` starting at `s`, inside the list. -/
def zrun (cs : List Nat) (s l : Nat) : Prop :=
  s + l ≤ cs.length ∧ ∀ j, j < l → cs.getD (s + j) 0 = 0

theorem leadZeros_le (cs : List Nat) : leadZeros cs ≤ cs.length := by
  induction cs with
  | nil => simp [leadZeros]
  | cons c cs ih =>
      simp only [leadZeros, List.length_cons]
      by_cases hc : c = 0
      · rw [if_pos hc]
        omega
      · rw [if_neg hc]
        omega

theorem leadZeros_spec1 (cs : List Nat) :
    ∀ j, j < leadZeros cs → cs.getD j 0 = 0 := by
  induction cs with
  | nil => intro j hj; simp [leadZeros] at hj
  | cons c cs ih =>
      intro j hj
      simp only [leadZeros] at hj
      by_cases hc : c = 0
      · rw [if_pos hc] at hj
        match j with
        | 0 => simpa using hc
        | Nat.succ m =>
            rw [List.getD_cons_succ]
            exact ih m (by omega)
      · rw [if_neg hc] at hj
        omega

theorem zrun_zero_le_leadZeros (cs : List Nat) :
    ∀ l, zrun cs 0 l → l ≤ leadZeros cs := by
  induction cs with
  | nil =>
      intro l hz
      have := hz.1
      simp at this
      omega
  | cons c cs ih =>
      intro l hz
      match l with
      | 0 => omega
      | Nat.succ m =>
          have hc : c = 0 := by
            have := hz.2 0 (by omega)
            simpa using this
          have hz2 : zrun cs 0 m := by
            refine ⟨?_, ?_⟩
            · have := hz.1
              simp at this
              omega
            · intro j hj
              have := hz.2 (j + 1) (by omega)
              rw [show (0 : Nat) + (j + 1) = j + 1 by omega, List.getD_cons_succ] at this
              simpa using this
          have := ih m hz2
          simp only [leadZeros, if_pos hc]
          omega

theorem zrun_leadZeros (cs : List Nat) : zrun cs 0 (leadZeros cs) :=
  ⟨by simpa using leadZeros_le cs, fun j hj => by simpa using leadZeros_spec1 cs j hj⟩

theorem zrun_cons_succ (c : Nat) (cs : List Nat) (s l : Nat) :
    zrun (c :: cs) (s + 1) l ↔ zrun cs s l := by
  constructor
  · intro hz
    refine ⟨by have := hz.1; simp at this; omega, ?_⟩
    intro j hj
    have := hz.2 j hj
    rw [show s + 1 + j = (s + j) + 1 by omega, List.getD_cons_succ] at this
    exact this
  · intro hz
    refine ⟨by have := hz.1; simp; omega, ?_⟩
    intro j hj
    rw [show s + 1 + j = (s + j) + 1 by omega, List.getD_cons_succ]
    exact hz.2 j hj

theorem lzr_spec (cs : List Nat) :
    zrun cs (lzr cs).1 (lzr cs).2 ∧
    (∀ s l, zrun cs s l → l ≤ (lzr cs).2) ∧
    (∀ s, zrun cs s (lzr cs).2 → (lzr cs).2 = 0 ∨ (lzr cs).1 ≤ s) ∧
    ((lzr cs).2 = 0 → (lzr cs).1 = 0) := by
  induction cs with
  | nil =>
      refine ⟨⟨by simp [lzr], by simp [lzr]⟩, ?_, ?_, ?_⟩
      · intro s l hz
        have := hz.1
        simp [lzr] at this ⊢
        omega
      · intro s _
        simp [lzr]
      · intro _
        simp [lzr]
  | cons c rest ih =>
      simp only [lzr]
      by_cases hlt : leadZeros (c :: rest) < (lzr rest).2
      · rw [if_pos hlt]
        simp only
        refine ⟨?_, ?_, ?_, ?_⟩
        · exact (zrun_cons_succ c rest _ _).mpr ih.1
        · intro s l hz
          match s with
          | 0 =>
              have := zrun_zero_le_leadZeros (c :: rest) l hz
              omega
          | Nat.succ t =>
              exact ih.2.1 t l ((zrun_cons_succ c rest t l).mp hz)
        · intro s hz
          match s with
          | 0 =>
              exfalso
              have := zrun_zero_le_leadZeros (c :: rest) _ hz
              omega
          | Nat.succ t =>
              have := ih.2.2.1 t ((zrun_cons_succ c rest t _).mp hz)
              rcases this with h0 | hle
              · omega
              · right
                omega
        · intro h0
          omega
      · rw [if_neg hlt]
        simp only
        refine ⟨zrun_leadZeros (c :: rest), ?_, ?_, ?_⟩
        · intro s l hz
          match s with
          | 0 => exact zrun_zero_le_leadZeros (c :: rest) l hz
          | Nat.succ t =>
              have := ih.2.1 t l ((zrun_cons_succ c rest t l).mp hz)
              omega
        · intro s _
          right
          omega
        · intro _
          trivial

end CompressedCoverage

end CCov

namespace CCov

namespace CompressedCoverage

/-- The ranges tile `[a, n)` in order: each starts where the previous
ended, each is nonempty, and the last ends at `n`. -/
def chainFrom : Nat → Nat → List (Nat × Nat) → Prop
  | a, n, [] => a = n
  | a, n, p :: rest => p.1 = a ∧ a < p.2 ∧ chainFrom p.2 n rest

/-- Consecutive ranges have different classifications at their starts. -/
def altern (cls : Nat → Bool) : List (Nat × Nat) → Prop
  | [] => True
  | [_] => True
  | p :: q :: rest => cls p.1 ≠ cls q.1 ∧ altern cls (q :: rest)

theorem takeRun_le (b : Bool) (cs : List Bool) : takeRun b cs ≤ cs.length := by
  induction cs with
  | nil => simp [takeRun]
  | cons c cs ih =>
      simp only [takeRun, List.length_cons]
      by_cases hc : c = b
      · rw [if_pos hc]
        omega
      · rw [if_neg hc]
        omega

theorem takeRun_spec1 (b : Bool) (cs : List Bool) :
    ∀ j, j < takeRun b cs → cs.getD j false = b := by
  induction cs with
  | nil => intro j hj; simp [takeRun] at hj
  | cons c cs ih =>
      intro j hj
      simp only [takeRun] at hj
      by_cases hc : c = b
      · rw [if_pos hc] at hj
        match j with
        | 0 => simpa using hc
        | Nat.succ m =>
            rw [List.getD_cons_succ]
            exact ih m (by omega)
      · rw [if_neg hc] at hj
        omega

theorem takeRun_spec2 (b : Bool) (cs : List Bool) (h : takeRun b cs < cs.length) :
    cs.getD (takeRun b cs) false ≠ b := by
  induction cs with
  | nil => simp [takeRun] at h
  | cons c cs ih =>
      simp only [takeRun] at h ⊢
      by_cases hc : c = b
      · rw [if_pos hc] at h ⊢
        rw [List.getD_cons_succ]
        exact ih (by simpa using h)
      · rw [if_neg hc]
        simpa using hc

theorem getD_drop_bool (l : List Bool) (n i : Nat) :
    (l.drop n).getD i false = l.getD (n + i) false := by
  simp [List.getD, List.getElem?_drop]

theorem runsAux_ne_nil (b : Bool) (rest : List Bool) (off : Nat) :
    runsAux (b :: rest) off ≠ [] := by
  simp [runsAux]

theorem runsAux_head_start (bs : List Bool) (off : Nat) (q : Nat × Nat) (qs : List (Nat × Nat))
    (h : runsAux bs off = q :: qs) : q.1 = off := by
  cases bs with
  | nil => simp [runsAux] at h
  | cons b rest =>
      simp only [runsAux] at h
      injection h with h1 _
      rw [← h1]

theorem runsAux_spec (cls : Nat → Bool) (bs : List Bool) (off : Nat) :
    (∀ j, j < bs.length → bs.getD j false = cls (off + j)) →
    chainFrom off (off + bs.length) (runsAux bs off) ∧
    (∀ p ∈ runsAux bs off, ∀ i, p.1 ≤ i → i < p.2 → cls i = cls p.1) ∧
    altern cls (runsAux bs off) := by
  induction bs, off using runsAux.induct with
  | case1 off =>
      intro _
      refine ⟨?_, ?_, ?_⟩
      · simp [runsAux, chainFrom]
      · simp [runsAux]
      · simp [runsAux, altern]
  | case2 b rest off ih =>
      intro hagree
      have hkle : takeRun b rest ≤ rest.length := takeRun_le b rest
      have hclsoff : cls off = b := by
        have := hagree 0 (by simp)
        simpa using this.symm
      have hrun : ∀ i, off ≤ i → i < off + (takeRun b rest + 1) → cls i = cls off := by
        intro i h1 h2
        rcases Nat.exists_eq_add_of_le h1 with ⟨j, rfl⟩
        match j with
        | 0 => rfl
        | Nat.succ m =>
            have hm : m < takeRun b rest := by omega
            have h3 := hagree (m + 1) (by simp; omega)
            rw [List.getD_cons_succ] at h3
            rw [takeRun_spec1 b rest m hm] at h3
            show cls (off + (m + 1)) = cls off
            rw [← h3, hclsoff]
      have hagree2 : ∀ j, j < (rest.drop (takeRun b rest)).length →
          (rest.drop (takeRun b rest)).getD j false =
            cls (off + (takeRun b rest + 1) + j) := by
        intro j hj
        rw [getD_drop_bool]
        have hlt : takeRun b rest + j < rest.length := by
          rw [List.length_drop] at hj
          omega
        have h5 := hagree (takeRun b rest + j + 1) (by simp; omega)
        rw [List.getD_cons_succ] at h5
        rw [h5]
        congr 1
        omega
      have ihs := ih hagree2
      refine ⟨?_, ?_, ?_⟩
      · simp only [runsAux, chainFrom]
        refine ⟨by trivial, by omega, ?_⟩
        have hend : off + (takeRun b rest + 1) + (rest.drop (takeRun b rest)).length =
            off + (b :: rest).length := by
          rw [List.length_drop]
          simp only [List.length_cons]
          omega
        rw [← hend]
        exact ihs.1
      · intro p hp i h1 h2
        simp only [runsAux, List.mem_cons] at hp
        rcases hp with hp | hp
        · subst hp
          exact hrun i h1 h2
        · exact ihs.2.1 p hp i h1 h2
      · simp only [runsAux]
        cases htail : runsAux (rest.drop (takeRun b rest)) (off + (takeRun b rest + 1)) with
        | nil => exact trivial
        | cons q qs =>
            have hq1 : q.1 = off + (takeRun b rest + 1) :=
              runsAux_head_start _ _ q qs htail
            have hklt : takeRun b rest < rest.length := by
              by_contra hge
              have : rest.drop (takeRun b rest) = [] := by
                apply List.drop_eq_nil_of_le
                omega
              rw [this] at htail
              simp [runsAux] at htail
            have hne : cls (off + (takeRun b rest + 1)) ≠ b := by
              have h3 := hagree (takeRun b rest + 1) (by simp; omega)
              rw [List.getD_cons_succ] at h3
              have h4 := takeRun_spec2 b rest hklt
              intro hcontra
              rw [h3] at h4
              exact h4 hcontra
            simp only [altern]
            rw [htail] at ihs
            refine ⟨?_, ihs.2.2⟩
            show cls off ≠ cls q.1
            rw [hq1, hclsoff]
            intro hcontra
            exact hne hcontra.symm

end CompressedCoverage

end CCov

namespace CCov

namespace CompressedCoverage

theorem and_three (w : Nat) : w &&& 3 = w % 4 := by
  have h := Nat.and_pow_two_sub_one_eq_mod w 2
  norm_num at h
  exact h

theorem and_sizeMask_eq (w : Nat) : w &&& sizeMask = w / 4 % 64 * 4 := by
  have hrhs : w / 4 % 64 * 4 = ((w >>> 2) % 2 ^ 6) <<< 2 := by
    rw [Nat.shiftRight_eq_div_pow, Nat.shiftLeft_eq]
    norm_num
  rw [hrhs]
  apply Nat.eq_of_testBit_eq
  intro i
  rw [Nat.testBit_and, Nat.testBit_shiftLeft, Nat.testBit_mod_two_pow,
    Nat.testBit_shiftRight]
  by_cases h8 : i < 8
  · by_cases h2 : 2 ≤ i
    · have hd : decide (2 ≤ i) = true := by simp [h2]
      have hd6 : decide (i - 2 < 6) = true := by
        simp only [decide_eq_true_eq]
        omega
      have hi : 2 + (i - 2) = i := by omega
      have hm : sizeMask.testBit i = true := by
        interval_cases i <;> decide
      rw [hd, hd6, hi, hm, Bool.and_true, Bool.true_and, Bool.true_and]
    · have hm : sizeMask.testBit i = false := by
        interval_cases i <;> decide
      have hd : decide (2 ≤ i) = false := by
        simp only [decide_eq_false_iff_not]
        omega
      rw [hm, hd, Bool.and_false, Bool.false_and]
  · have hm : sizeMask.testBit i = false := by
      apply Nat.testBit_lt_two_pow
      have h1 : (2 : Nat) ^ 8 ≤ 2 ^ i := Nat.pow_le_pow_right (by norm_num) (by omega)
      have h2 : sizeMask < 2 ^ 8 := by norm_num [sizeMask]
      omega
    have hd : decide (2 ≤ i) = true := by
      simp only [decide_eq_true_eq]
      omega
    have hd6 : decide (i - 2 < 6) = false := by
      simp only [decide_eq_false_iff_not]
      omega
    rw [hm, hd, hd6, Bool.and_false, Bool.true_and, Bool.false_and]

theorem sizeMask_decode (w : Nat) : (w &&& sizeMask) >>> 2 = decodeInlineLen w := by
  rw [and_sizeMask_eq, Nat.shiftRight_eq_div_pow]
  simp only [decodeInlineLen]
  norm_num

theorem ctr_mask_decode (w i : Nat) : (w >>> (8 + 2 * i)) &&& 3 = decodeInlineCtr w i := by
  rw [and_three, Nat.shiftRight_eq_div_pow]
  rfl

theorem takeRun_replicate (n : Nat) (b : Bool) : takeRun b (List.replicate n b) = n := by
  induction n with
  | zero => simp [takeRun]
  | succ m ih =>
      rw [List.replicate_succ]
      simp [takeRun, ih]

theorem runsAux_replicate (n : Nat) (b : Bool) (off : Nat) (h : 0 < n) :
    runsAux (List.replicate n b) off = [(off, off + n)] := by
  match n, h with
  | Nat.succ m, _ =>
      rw [List.replicate_succ]
      simp only [runsAux, takeRun_replicate]
      rw [List.drop_replicate]
      simp [runsAux]

theorem map_beq_replicate (n : Nat) :
    (List.replicate n cov_full).map (fun c => c == cov_full) = List.replicate n true := by
  simp

theorem splittingVector_congr (a b : CompressedCoverage) (hs : a.size = b.size)
    (hc : a.toCounters = b.toCounters) (ha : honest a) (hb : honest b) :
    a.splittingVector = b.splittingVector := by
  unfold splittingVector
  by_cases h0 : a.size = 0
  · have h0b : b.size = 0 := by omega
    rw [if_pos h0, if_pos h0b]
  · have h0b : ¬ b.size = 0 := by omega
    rw [if_neg h0, if_neg h0b]
    by_cases hfa : a.isFull = true
    · rw [if_pos hfa]
      have hca := ha hfa
      by_cases hfb : b.isFull = true
      · rw [if_pos hfb, hs]
      · rw [if_neg hfb]
        rw [← hc, hca, map_beq_replicate, runsAux_replicate _ _ _ (by omega)]
        simp
    · rw [if_neg hfa]
      by_cases hfb : b.isFull = true
      · rw [if_pos hfb]
        have hcb := hb hfb
        rw [hc, hcb, map_beq_replicate, runsAux_replicate _ _ _ (by omega)]
        simp
      · rw [if_neg hfb, hc]

theorem lowCoverageInfo_congr (a b : CompressedCoverage)
    (hc : a.toCounters = b.toCounters) : a.lowCoverageInfo = b.lowCoverageInfo := by
  unfold lowCoverageInfo
  rw [hc]

theorem covAt_congr (a b : CompressedCoverage) (hs : a.size = b.size)
    (hc : a.toCounters = b.toCounters) (i : Nat) (hi : i < a.size) :
    a.covAt i = b.covAt i := by
  rw [covAt_eq_getD a i hi, covAt_eq_getD b i (by omega), hc]

theorem applyOps_bisim (ops : List (Nat × Nat)) :
    ∀ a b : CompressedCoverage, honest a → honest b → a.size = b.size →
    a.toCounters = b.toCounters →
    (applyOps a ops).size = (applyOps b ops).size ∧
    (applyOps a ops).toCounters = (applyOps b ops).toCounters ∧
    honest (applyOps a ops) ∧ honest (applyOps b ops) := by
  induction ops with
  | nil => intro a b ha hb hs hc; exact ⟨hs, hc, ha, hb⟩
  | cons op rest ih =>
      intro a b ha hb hs hc
      rw [applyOps_cons, applyOps_cons]
      apply ih
      · exact honest_cover a ha op.1 op.2
      · exact honest_cover b hb op.1 op.2
      · rw [size_cover a ha op.1 op.2, size_cover b hb op.1 op.2, hs]
      · rw [toCounters_cover a ha op.1 op.2, toCounters_cover b hb op.1 op.2, hc]

theorem size_initCC (sz : Nat) (f : Bool) : (initCC sz f).size = sz := by
  cases f with
  | true =>
      simp only [initCC, if_pos]
      exact size_mkFull sz
  | false =>
      by_cases hsz : sz ≤ size_limit
      · simp only [initCC, Bool.false_eq_true, if_false, if_pos hsz]
        have h1 : fullBit ⟨tagMask + 4 * sz, none⟩ = 0 := by
          simp only [fullBit, tagMask]
          omega
        have h2 : tagBit ⟨tagMask + 4 * sz, none⟩ = 1 := by
          simp only [tagBit, tagMask]
          omega
        rw [size_of_inline _ h1 h2]
        simp only [decodeInlineLen, tagMask, size_limit] at *
        omega
      · simp only [initCC, Bool.false_eq_true, if_false, if_neg hsz]
        simp [size, fullBit, tagBit]

end CompressedCoverage

/-- From the source: the generic payload wrapper `CompressedCoverage_t<T>`,
pairing a coverage store `ccov` with an opaque payload `data`. -/
structure CompressedCoverageT (T : Type) where
  ccov : CompressedCoverage
  data : T

namespace CompressedCoverageT

/-- From the source: `getData()` returns the stored payload (the C++
version returns its address; the model returns the value). -/
def getData {T : Type} (h : CompressedCoverageT T) : T := h.data

/-- From the source: `setData(data_)` copies the pointee into the `data`
field and touches nothing else. -/
def setData {T : Type} (h : CompressedCoverageT T) (v : T) : CompressedCoverageT T :=
  { h with data := v }

/-- Lifting of the coverage update to the holder: it acts on the `ccov`
field only, as in the source, where coverage operations are methods of
the `ccov` member and never mention the payload. -/
def coverT {T : Type} (h : CompressedCoverageT T) (s e : Nat) : CompressedCoverageT T :=
  { h with ccov := h.ccov.cover s e }

end CompressedCoverageT

/-- From the source: the no-payload specialization `CompressedCoverage_t<void>`
holds only the coverage store. -/
structure CompressedCoverageVoid where
  ccov : CompressedCoverage

namespace CompressedCoverageVoid

/-- From the source: in the void specialization `getData()` always
returns `nullptr`, modelled as `none`. -/
def getDataVoid (_ : CompressedCoverageVoid) : Option Empty := none

/-- From the source: in the void specialization `setData` does nothing. -/
def setDataVoid (h : CompressedCoverageVoid) (_ : Option Empty) : CompressedCoverageVoid := h

end CompressedCoverageVoid

end CCov

namespace CCov

namespace CompressedCoverage

theorem getD_map_beq (cs : List Nat) (j : Nat) (hj : j < cs.length) :
    (cs.map (fun c => c == cov_full)).getD j false = (cs.getD j 0 == cov_full) := by
  rw [List.getD_eq_getElem _ false (by simpa using hj), List.getD_eq_getElem _ 0 hj]
  simp

/-- C1: cover(start, end) raises exactly the counters in the half-open
range [start, end) to cov_full, leaves every counter outside the range
unchanged, and is a no-op on an is_full store; in particular, after
cover(2,4) then cover(3,6) on a fresh length-10 store, positions 2..5
equal cov_full and positions 0, 1 and 6..9 equal 0. -/
theorem claim1_cover_range (cc : CompressedCoverage) (s e : Nat)
    (hwf : WF cc) (hse : s ≤ e) (hel : e ≤ cc.size) :
    (∀ i, s ≤ i → i < e → (cc.cover s e).covAt i = cov_full) ∧
    (∀ i, i < cc.size → i < s ∨ e ≤ i → (cc.cover s e).covAt i = cc.covAt i) ∧
    (cc.isFull = true → cc.cover s e = cc) ∧
    (∀ i, i < 6 → 2 ≤ i →
      (cover (cover (initCC 10 false) 2 4) 3 6).covAt i = cov_full) ∧
    (cover (cover (initCC 10 false) 2 4) 3 6).covAt 0 = 0 ∧
    (cover (cover (initCC 10 false) 2 4) 3 6).covAt 1 = 0 ∧
    (∀ i, i < 10 → 6 ≤ i →
      (cover (cover (initCC 10 false) 2 4) 3 6).covAt i = 0) := by
  have hh := WF_honest cc hwf
  refine ⟨?_, ?_, ?_, by decide, by decide, by decide, by decide⟩
  · intro i h1 h2
    exact covAt_cover_sat cc hh s e i h1 h2 (by omega)
  · intro i hi hout
    exact covAt_cover_out cc hh s e i hout hi
  · intro hf
    exact cover_eq_of_isFull cc hf s e

/-- Witness for C1: the range update on a concrete fresh store. -/
theorem claim1_witness :
    (cover (initCC 5 false) 1 3).covAt 1 = cov_full ∧
    (cover (initCC 5 false) 1 3).covAt 0 = (initCC 5 false).covAt 0 := by
  have h := claim1_cover_range (initCC 5 false) 1 3 (WF_initCC 5 false)
    (by omega) (by rw [size_initCC]; omega)
  exact ⟨h.1 1 (by omega) (by omega),
         h.2.1 0 (by rw [size_initCC]; omega) (by omega)⟩

/-- C2 counterexample: the empty sequence of cover calls on a freshly
initialized length-0 store has covered-range union exactly [0, 0), yet
isFull() is false, contradicting the claim as stated. -/
theorem claim2_counterexample :
    (initCC 0 false).size = 0 ∧
    applyOps (initCC 0 false) [] = initCC 0 false ∧
    (initCC 0 false).isFull = false := by
  exact ⟨by decide, rfl, by decide⟩

/-- C2 (amended: nonempty sequence): after any nonempty sequence of
valid cover calls whose ranges cover every position, the store is full,
every counter reads cov_full, any heap buffer has been released, and a
cover call that does not make the store full preserves the physical
layout (the fully-covered collapse is the only automatic representation
transition). -/
theorem claim2_full_collapse (cc : CompressedCoverage) (ops : List (Nat × Nat))
    (hwf : WF cc) (hne : ops ≠ [])
    (hvalid : ∀ p ∈ ops, p.1 ≤ p.2 ∧ p.2 ≤ cc.size)
    (hcover : ∀ i, i < cc.size → ∃ p ∈ ops, p.1 ≤ i ∧ i < p.2) :
    (applyOps cc ops).isFull = true ∧
    (∀ i, i < cc.size → (applyOps cc ops).covAt i = cov_full) ∧
    (applyOps cc ops).buf = none ∧
    (∀ s e, (cc.cover s e).isFull = false →
      (cc.cover s e).tagBit = cc.tagBit ∧
      ((cc.cover s e).buf).isSome = (cc.buf).isSome) := by
  have heq : applyOps cc ops = mkFull cc.size :=
    applyOps_full ops cc hwf hne (fun i hi => Or.inl (hcover i hi))
  refine ⟨?_, ?_, ?_, ?_⟩
  · rw [heq]
    exact isFull_mkFull _
  · intro i _
    rw [heq]
    exact covAt_mkFull _ _
  · rw [heq]
    rfl
  · intro s e hnf
    exact cover_layout cc hwf s e hnf

/-- Witness for C2: covering [0, 30) of a heap-layout store makes it
full and releases the buffer. -/
theorem claim2_witness :
    (applyOps (initCC 30 false) [(0, 30)]).isFull = true ∧
    (applyOps (initCC 30 false) [(0, 30)]).buf = none := by
  have h := claim2_full_collapse (initCC 30 false) [(0, 30)] (WF_initCC 30 false)
    (by simp) (by decide) (by decide)
  exact ⟨h.1, h.2.2.1⟩

/-- C3 counterexample: initialize(0, true) yields a store that is
is_full yet whose splitting vector is the empty sequence, not a single
confirmed range, so the two edge clauses of the claim conflict on this
store. -/
theorem claim3_counterexample :
    (initCC 0 true).isFull = true ∧ (initCC 0 true).splittingVector = [] := by
  exact ⟨by decide, by decide⟩

/-- C3 (amended: the single confirmed range is produced when is_full
and the length is positive): the splitting vector tiles [0, length)
with nonempty ranges, each range is uniformly classified (confirmed =
counter equals cov_full), adjacent ranges differ in classification, an
empty store yields the empty sequence, and a full nonempty store yields
the single confirmed whole-node range. -/
theorem claim3_splitting (cc : CompressedCoverage) (hwf : WF cc) :
    chainFrom 0 cc.size cc.splittingVector ∧
    (∀ p ∈ cc.splittingVector, ∀ i, p.1 ≤ i → i < p.2 →
      (cc.covAt i == cov_full) = (cc.covAt p.1 == cov_full)) ∧
    altern (fun i => cc.covAt i == cov_full) cc.splittingVector ∧
    (cc.size = 0 → cc.splittingVector = []) ∧
    (cc.isFull = true → 0 < cc.size → cc.splittingVector = [(0, cc.size)]) := by
  by_cases h0 : cc.size = 0
  · have hsv : cc.splittingVector = [] := by
      unfold splittingVector
      rw [if_pos h0]
    refine ⟨?_, ?_, ?_, fun _ => hsv, fun _ hpos => by omega⟩
    · rw [hsv, h0]
      exact rfl
    · intro p hp
      rw [hsv] at hp
      simp at hp
    · rw [hsv]
      exact trivial
  · by_cases hf : cc.isFull = true
    · have hsv : cc.splittingVector = [(0, cc.size)] := by
        unfold splittingVector
        rw [if_neg h0, if_pos hf]
      have hsh := isFull_shape cc hwf hf
      have hfb : cc.fullBit = 1 := fullBit_of_mod4_three cc hsh.1
      have hca : ∀ i, cc.covAt i = cov_full := by
        intro i
        simp [covAt, hfb]
      refine ⟨?_, ?_, ?_, fun hz => by omega, fun _ _ => hsv⟩
      · rw [hsv]
        exact ⟨rfl, by omega, rfl⟩
      · intro p hp i _ _
        rw [hsv] at hp
        simp only [List.mem_singleton] at hp
        subst hp
        rw [hca i, hca 0]
      · rw [hsv]
        exact trivial
    · have hf2 : cc.isFull = false := isFull_eq_false cc hf
      have hsv : cc.splittingVector =
          runsAux (cc.toCounters.map (fun c => c == cov_full)) 0 := by
        unfold splittingVector
        rw [if_neg h0, if_neg hf]
      have hagree : ∀ j, j < (cc.toCounters.map (fun c => c == cov_full)).length →
          (cc.toCounters.map (fun c => c == cov_full)).getD j false =
            (fun i => cc.covAt i == cov_full) (0 + j) := by
        intro j hj
        rw [List.length_map, toCounters_length] at hj
        rw [getD_map_beq _ j (by rw [toCounters_length]; exact hj)]
        simp only [Nat.zero_add]
        rw [← covAt_eq_getD cc j hj]
      have hrs := runsAux_spec (fun i => cc.covAt i == cov_full)
        (cc.toCounters.map (fun c => c == cov_full)) 0 hagree
      have hlen : (cc.toCounters.map (fun c => c == cov_full)).length = cc.size := by
        rw [List.length_map, toCounters_length]
      refine ⟨?_, ?_, ?_, fun hz => by omega, fun hfc _ => by rw [hfc] at hf2; cases hf2⟩
      · rw [hsv]
        have := hrs.1
        rw [hlen] at this
        simpa using this
      · intro p hp i h1 h2
        rw [hsv] at hp
        exact hrs.2.1 p hp i h1 h2
      · rw [hsv]
        exact hrs.2.2

/-- Witness for C3: the splitting vector of a concrete partially
covered store tiles the node. -/
theorem claim3_witness :
    chainFrom 0 (cover (initCC 5 false) 1 3).size
      (cover (initCC 5 false) 1 3).splittingVector := by
  exact (claim3_splitting (cover (initCC 5 false) 1 3)
    (WF_cover (initCC 5 false) (WF_initCC 5 false) 1 3)).1

end CompressedCoverage

end CCov

namespace CCov

namespace CompressedCoverage

/-- C4: for any counter contents valid for the inline layout, driving
an inline-layout store and a heap-layout store holding the same
counters with the same sequence of cover calls yields identical results
for size, covAt, splittingVector and lowCoverageInfo, regardless of
which physical layout is active. -/
theorem claim4_rep_equiv (cs : List Nat) (hlen : cs.length ≤ size_limit)
    (hle : ∀ c ∈ cs, c ≤ cov_full) (ops : List (Nat × Nat)) :
    (applyOps (mkInline cs) ops).size = (applyOps (mkHeap cs) ops).size ∧
    (∀ i, i < (applyOps (mkInline cs) ops).size →
      (applyOps (mkInline cs) ops).covAt i = (applyOps (mkHeap cs) ops).covAt i) ∧
    (applyOps (mkInline cs) ops).splittingVector =
      (applyOps (mkHeap cs) ops).splittingVector ∧
    (applyOps (mkInline cs) ops).lowCoverageInfo =
      (applyOps (mkHeap cs) ops).lowCoverageInfo := by
  have h63 : cs.length ≤ 63 := by
    simp only [size_limit] at hlen
    omega
  have h4 : ∀ c ∈ cs, c < 4 := by
    intro c hc
    have := hle c hc
    simp only [cov_full] at this
    omega
  have ha : honest (mkInline cs) := by
    intro hf
    rw [isFull_mkInline] at hf
    cases hf
  have hb : honest (mkHeap cs) := by
    intro hf
    simp only [isFull, mkHeap, fullBit, tagBit] at hf
    norm_num at hf
    have hall : allSat cs = true := (countSat_eq_length_iff cs).mp hf
    rw [toCounters_mkHeap cs h4, size_mkHeap]
    exact allSat_eq_replicate cs hall
  have hbs := applyOps_bisim ops (mkInline cs) (mkHeap cs) ha hb
    (by rw [size_mkInline cs h63, size_mkHeap])
    (by rw [toCounters_mkInline cs h63 h4, toCounters_mkHeap cs h4])
  refine ⟨hbs.1, ?_, ?_, ?_⟩
  · intro i hi
    exact covAt_congr _ _ hbs.1 hbs.2.1 i hi
  · exact splittingVector_congr _ _ hbs.1 hbs.2.1 hbs.2.2.1 hbs.2.2.2
  · exact lowCoverageInfo_congr _ _ hbs.2.1

/-- Witness for C4: the two layouts agree on a concrete store and
operation sequence. -/
theorem claim4_witness :
    (applyOps (mkInline [0, 0, 0, 0, 0]) [(1, 3)]).splittingVector =
      (applyOps (mkHeap [0, 0, 0, 0, 0]) [(1, 3)]).splittingVector := by
  exact (claim4_rep_equiv [0, 0, 0, 0, 0] (by decide) (by decide) [(1, 3)]).2.2.1

/-- C5 counterexample: on the freshly initialized length-0 store the
range [0, 0) is vacuously already fully covered (it contains no
position), yet cover(0, 0) flips isFull() from false to true,
contradicting the saturation-idempotence clause as stated. -/
theorem claim5_counterexample :
    (initCC 0 false).isFull = false ∧
    ((initCC 0 false).cover 0 0).isFull = true := by
  exact ⟨by decide, by decide⟩

/-- C5 (amended: the isFull-invariance clause of saturation idempotence
holds for stores of positive length): counter values never exceed
cov_full, covAt is non-decreasing under cover — both for a single call
and along any sequence — and covering an already fully covered range
leaves the affected counters at cov_full and, when the store is
nonempty, does not change isFull(). -/
theorem claim5_monotone (cc : CompressedCoverage) (hwf : WF cc) (s e : Nat) :
    (∀ i, i < cc.size → cc.covAt i ≤ cov_full) ∧
    (∀ i, i < cc.size → cc.covAt i ≤ (cc.cover s e).covAt i) ∧
    (∀ ops : List (Nat × Nat), ∀ i, i < cc.size →
      cc.covAt i ≤ (applyOps cc ops).covAt i) ∧
    ((∀ i, s ≤ i → i < e → cc.covAt i = cov_full) →
      (∀ i, s ≤ i → i < e → i < cc.size → (cc.cover s e).covAt i = cov_full) ∧
      (0 < cc.size → (cc.cover s e).isFull = cc.isFull)) := by
  refine ⟨?_, ?_, ?_, ?_⟩
  · intro i hi
    exact covAt_le2 cc hwf i hi
  · intro i hi
    exact covAt_cover_mono cc hwf s e i hi
  · intro ops i hi
    exact covAt_applyOps_mono cc hwf ops i hi
  · intro hcov
    refine ⟨?_, ?_⟩
    · intro i h1 h2 hi
      exact covAt_cover_sat_persist cc hwf s e i hi (hcov i h1 h2)
    · intro hpos
      exact isFull_cover_covered cc hwf s e hpos hcov

/-- Witness for C5: idempotence of a repeated cover on a concrete
nonempty store. -/
theorem claim5_witness :
    ((cover (initCC 5 false) 1 3).cover 1 3).isFull =
      (cover (initCC 5 false) 1 3).isFull := by
  have h := claim5_monotone (cover (initCC 5 false) 1 3)
    (WF_cover (initCC 5 false) (WF_initCC 5 false) 1 3) 1 3
  apply (h.2.2.2 ?_).2 ?_
  · intro i h1 h2
    interval_cases i <;> decide
  · decide

/-- C6: lowCoverageInfo() returns the start and length of the longest
run of zero counters, with ties broken by the earliest start, and a
zero-length result positioned at 0 when no zero counter exists
(including when the store is full). -/
theorem claim6_lowcov (cc : CompressedCoverage) (hwf : WF cc) :
    ((cc.lowCoverageInfo).1 + (cc.lowCoverageInfo).2 ≤ cc.size ∧
     (∀ j, j < (cc.lowCoverageInfo).2 →
       cc.covAt ((cc.lowCoverageInfo).1 + j) = 0)) ∧
    (∀ s l, s + l ≤ cc.size → (∀ j, j < l → cc.covAt (s + j) = 0) →
      l ≤ (cc.lowCoverageInfo).2) ∧
    (∀ s, s + (cc.lowCoverageInfo).2 ≤ cc.size →
      (∀ j, j < (cc.lowCoverageInfo).2 → cc.covAt (s + j) = 0) →
      (cc.lowCoverageInfo).2 = 0 ∨ (cc.lowCoverageInfo).1 ≤ s) ∧
    ((∀ i, i < cc.size → cc.covAt i ≠ 0) → cc.lowCoverageInfo = (0, 0)) := by
  have hspec := lzr_spec cc.toCounters
  have hlen := toCounters_length cc
  have hzc : ∀ s l, zrun cc.toCounters s l ↔
      (s + l ≤ cc.size ∧ ∀ j, j < l → cc.covAt (s + j) = 0) := by
    intro s l
    constructor
    · intro hz
      refine ⟨by rw [← hlen]; exact hz.1, ?_⟩
      intro j hj
      rw [covAt_eq_getD cc (s + j) (by rw [← hlen]; have := hz.1; omega)]
      exact hz.2 j hj
    · intro hz
      refine ⟨by rw [hlen]; exact hz.1, ?_⟩
      intro j hj
      rw [← covAt_eq_getD cc (s + j) (by have := hz.1; omega)]
      exact hz.2 j hj
  refine ⟨?_, ?_, ?_, ?_⟩
  · exact (hzc _ _).mp hspec.1
  · intro s l hb hz
    exact hspec.2.1 s l ((hzc s l).mpr ⟨hb, hz⟩)
  · intro s hb hz
    exact hspec.2.2.1 s ((hzc s _).mpr ⟨hb, hz⟩)
  · intro hnz
    have hl0 : (lzr cc.toCounters).2 = 0 := by
      by_contra hne
      have hz := (hzc _ _).mp hspec.1
      have := hz.2 0 (by omega)
      exact hnz _ (by omega) this
    have hs0 := hspec.2.2.2 hl0
    unfold lowCoverageInfo
    rw [Prod.ext_iff]
    exact ⟨hs0, hl0⟩

/-- Witness for C6: the report on a concrete partially covered store is
a run of zeros within bounds. -/
theorem claim6_witness :
    (cover (initCC 5 false) 1 3).lowCoverageInfo.1 +
      (cover (initCC 5 false) 1 3).lowCoverageInfo.2 ≤
      (cover (initCC 5 false) 1 3).size := by
  exact (claim6_lowcov (cover (initCC 5 false) 1 3)
    (WF_cover (initCC 5 false) (WF_initCC 5 false) 1 3)).1.1

/-- The fully-covered shortcut state. -/
def fullState (cc : CompressedCoverage) : Prop := cc.fullBit = 1

/-- The inline local-array state. -/
def inlineState (cc : CompressedCoverage) : Prop := cc.fullBit = 0 ∧ cc.tagBit = 1

/-- The heap-pointer state, with a live allocation. -/
def heapState (cc : CompressedCoverage) : Prop :=
  cc.fullBit = 0 ∧ cc.tagBit = 0 ∧ (cc.buf).isSome = true

/-- C7: at every well-formed state exactly one of the inline, heap and
full descriptions of the counters holds; when the full bit is set, bit
0 is forced to the inline no-pointer pattern and no heap allocation is
held; and well-formedness is established by initialize and preserved by
cover and setFull. -/
theorem claim7_invariant (cc : CompressedCoverage) (hwf : WF cc) :
    (∀ sz f, WF (initCC sz f)) ∧
    (∀ s e, WF (cc.cover s e)) ∧
    WF cc.setFull ∧
    (cc.fullBit = 1 → cc.tagBit = 1 ∧ cc.buf = none) ∧
    ((fullState cc ∧ ¬ inlineState cc ∧ ¬ heapState cc) ∨
     (inlineState cc ∧ ¬ fullState cc ∧ ¬ heapState cc) ∨
     (heapState cc ∧ ¬ fullState cc ∧ ¬ inlineState cc)) := by
  refine ⟨WF_initCC, WF_cover cc hwf, WF_setFull cc, ?_, ?_⟩
  · intro hfb
    cases hb : cc.buf with
    | some b =>
        have hel := WF_heap_elim cc b hwf hb
        rw [fullBit, hel.1] at hfb
        simp at hfb
    | none =>
        rcases WF_none_elim cc hwf hb with h3 | h1
        · refine ⟨?_, rfl⟩
          simp only [tagBit]
          omega
        · have := (bits_of_mod4_one cc h1.1).1
          omega
  · cases hb : cc.buf with
    | some b =>
        have hel := WF_heap_elim cc b hwf hb
        have hfb : cc.fullBit = 0 := by rw [fullBit, hel.1]
        have ht : cc.tagBit = 0 := by rw [tagBit, hel.1]
        right; right
        refine ⟨⟨hfb, ht, by rw [hb]; rfl⟩, ?_, ?_⟩
        · intro hfs
          rw [fullState] at hfs
          omega
        · intro his
          rw [inlineState] at his
          omega
    | none =>
        rcases WF_none_elim cc hwf hb with h3 | h1
        · have hfb : cc.fullBit = 1 := fullBit_of_mod4_three cc h3
          left
          refine ⟨hfb, ?_, ?_⟩
          · intro his
            rw [inlineState] at his
            omega
          · intro hhs
            rw [heapState] at hhs
            omega
        · have hbits := bits_of_mod4_one cc h1.1
          right; left
          refine ⟨⟨hbits.1, hbits.2⟩, ?_, ?_⟩
          · intro hfs
            rw [fullState] at hfs
            omega
          · intro hhs
            rw [heapState, hb] at hhs
            simp at hhs

/-- Witness for C7: the invariant package at a concrete store. -/
theorem claim7_witness :
    WF ((initCC 5 false).setFull) ∧
    ((initCC 5 false).fullBit = 1 →
      (initCC 5 false).tagBit = 1 ∧ (initCC 5 false).buf = none) := by
  have h := claim7_invariant (initCC 5 false) (WF_initCC 5 false)
  exact ⟨h.2.2.1, h.2.2.2.1⟩

end CompressedCoverage

end CCov

namespace CCov

namespace CompressedCoverage

/-- C8: the layout constants are size_limit = 28 and cov_full = 2; the
tag bit is bit 0 (mask 1), the full bit is bit 1 (mask 2), the length
mask 0xFC selects the six bits at positions 2..7 (every length 0..28
fits in it), and the 28 two-bit counters occupy exactly the remaining
56 high bits of the 64-bit word. -/
theorem claim8_constants :
    size_limit = 28 ∧ cov_full = 2 ∧ tagMask = 1 ∧ fullMask = 2 ∧
    sizeMask = 0xFC ∧ sizeMask = (2 ^ 6 - 1) * 2 ^ 2 ∧
    (∀ w, (w &&& sizeMask) >>> 2 = decodeInlineLen w) ∧
    (∀ w i, (w >>> (8 + 2 * i)) &&& 3 = decodeInlineCtr w i) ∧
    (∀ n, n ≤ size_limit → decodeInlineLen (tagMask + 4 * n) = n) ∧
    2 + 6 + 2 * size_limit = 64 ∧
    (∀ cs : List Nat, cs.length ≤ size_limit → (∀ c ∈ cs, c < 4) →
      pack2 cs < 2 ^ 56 ∧ encodeInline cs < 2 ^ 64) ∧
    pack2 (List.replicate size_limit 3) = 2 ^ 56 - 1 := by
  refine ⟨rfl, rfl, rfl, rfl, rfl, by decide, sizeMask_decode, ctr_mask_decode,
    ?_, by decide, ?_, by decide⟩
  · intro n hn
    simp only [decodeInlineLen, tagMask, size_limit] at *
    omega
  · intro cs hlen h4
    have hp := pack2_lt cs h4
    have h1 : (4 : Nat) ^ cs.length ≤ 4 ^ 28 :=
      Nat.pow_le_pow_right (by norm_num) (by simpa [size_limit] using hlen)
    have h2 : (4 : Nat) ^ 28 = 2 ^ 56 := by norm_num
    have hp2 : pack2 cs < 2 ^ 56 := by omega
    refine ⟨hp2, ?_⟩
    simp only [encodeInline, tagMask, size_limit] at *
    have h3 : (2 : Nat) ^ 56 = 72057594037927936 := by norm_num
    have h4 : (2 : Nat) ^ 64 = 18446744073709551616 := by norm_num
    omega

/-- Witness for C8: length-fit and word-fit at concrete values. -/
theorem claim8_witness :
    decodeInlineLen (tagMask + 4 * 7) = 7 ∧
    encodeInline [3, 3, 3] < 2 ^ 64 := by
  exact ⟨claim8_constants.2.2.2.2.2.2.2.2.1 7 (by decide),
    (claim8_constants.2.2.2.2.2.2.2.2.2.2.1 [3, 3, 3] (by decide) (by decide)).2⟩

/-- C9: round_to_bytes(len) = (len + 3) / 4 is exactly the ceiling of
len / 4, the number of bytes that hold len counters packed four per
byte, and a heap-layout store for a given size allocates the two-field
header plus round_to_bytes(size) packed bytes, zero-initialized. -/
theorem claim9_round_to_bytes :
    (∀ len, round_to_bytes len = (len + 3) / 4) ∧
    (∀ len, len ≤ 4 * round_to_bytes len) ∧
    (∀ len m, len ≤ 4 * m → round_to_bytes len ≤ m) ∧
    (∀ cs : List Nat, (packBytes cs).length = round_to_bytes cs.length) ∧
    (∀ sz, size_limit < sz → initCC sz false =
      ⟨0, some ⟨sz, 0, List.replicate (round_to_bytes sz) 0⟩⟩) := by
  refine ⟨fun len => rfl, ?_, ?_, packBytes_length, ?_⟩
  · intro len
    simp only [round_to_bytes]
    omega
  · intro len m hm
    simp only [round_to_bytes]
    omega
  · intro sz hsz
    simp only [initCC, Bool.false_eq_true, if_false, if_neg (by omega : ¬ sz ≤ size_limit)]

/-- Witness for C9: the byte count and the heap allocation at size 30. -/
theorem claim9_witness :
    30 ≤ 4 * round_to_bytes 30 ∧ round_to_bytes 30 ≤ 8 ∧
    initCC 30 false = ⟨0, some ⟨30, 0, List.replicate (round_to_bytes 30) 0⟩⟩ := by
  exact ⟨claim9_round_to_bytes.2.1 30,
    claim9_round_to_bytes.2.2.1 30 8 (by omega),
    claim9_round_to_bytes.2.2.2.2 30 (by decide)⟩

end CompressedCoverage

/-- C10: setData stores a copy of the payload retrievable via getData
and leaves the coverage store unchanged; coverage operations lifted to
the holder touch only the ccov field; and in the no-payload
specialization getData always returns the null pointer and setData
leaves the holder unchanged. -/
theorem claim10_payload {T : Type} (h : CompressedCoverageT T) (v : T)
    (hv : CompressedCoverageVoid) (p : Option Empty) (s e : Nat) :
    (h.setData v).getData = v ∧
    (h.setData v).ccov = h.ccov ∧
    h.setData v = ⟨h.ccov, v⟩ ∧
    (h.coverT s e).data = h.data ∧
    (h.coverT s e).ccov = h.ccov.cover s e ∧
    hv.getDataVoid = none ∧
    hv.setDataVoid p = hv := by
  exact ⟨rfl, rfl, rfl, rfl, rfl, rfl, rfl⟩

end CCov
